import Mathlib

/-!
Verification of the trend-aggregation and data-lifecycle subsystem of the
fin_ops expense tracker.

The development shallowly embeds:
* the trend aggregator of `backend/src/services/expenseService.ts`
  (`processMonthlyTrends`, `processYearlyTrends`, `processCategoryTrends`,
  and the range resolution inside `getTrends`);
* the range-ordering check of `trendsQuerySchema` in
  `backend/src/validation/expense.ts`;
* the archive manager of `backend/src/services/archiveService.ts`
  (`archiveOldData`, `archiveBatch`, `restoreFromArchive`).

Amounts are stored as `DECIMAL(12,2)` in the database.  The
data-lifecycle operations copy amounts without arithmetic, and for them
an amount is embedded as the exact 2-decimal value it denotes (an
integer count of cents, `Int`).  The trend aggregator, however, reads
each amount as `Number(expense.amount)` and accumulates with `+=` on
IEEE-754 binary64 doubles, so the file carries two aggregation
semantics: the idealized exact one (`accumStep`), which is what the
spec's reconciliation invariant presupposes, and a faithful binary64
one (`accumStepFP` over exact dyadic rationals), used to show where the
source deviates from that invariant.
Timestamps are embedded as natural numbers (milliseconds since epoch);
categories are the enum's string values.
Stores (the live `cost` table and the archive table) are embedded as lists
of records, and the Prisma calls become pure state-passing operations.
-/

set_option autoImplicit false

namespace FinOps

/-- A live expense record, mirroring the Prisma `Cost` model
(`id`, `category`, `amount DECIMAL(12,2)`, `month`, `year`,
`createdAt`, `updatedAt`).  `amount` is the stored column's exact
2-decimal value, in cents; the trend aggregator reads it through
`Number(...)` as a binary64 double — see `CostFP` for that view. -/
structure Cost where
  id : Nat
  category : String
  amount : Int
  month : Nat
  year : Nat
  createdAt : Nat
  updatedAt : Nat
  deriving DecidableEq, Repr

/-- A row of the archive table created by `ensureArchiveTableExists`:
the live record shape plus `archived_at`. -/
structure ArchivedCost where
  id : Nat
  category : String
  amount : Int
  month : Nat
  year : Nat
  createdAt : Nat
  updatedAt : Nat
  archivedAt : Nat
  deriving DecidableEq, Repr

/-- Bounds enforced by `createExpenseSchema` in
`backend/src/validation/expense.ts`: `month` in 1..12 and `year` in
2020..2050.  Every record in the live store was validated on creation. -/
def ValidPeriod (c : Cost) : Prop :=
  1 ≤ c.month ∧ c.month ≤ 12 ∧ 2020 ≤ c.year ∧ c.year ≤ 2050

instance (c : Cost) : Decidable (ValidPeriod c) := by
  unfold ValidPeriod; infer_instance

/-! ### JavaScript `Map` as an insertion-ordered association list

`Map.set` on an existing key replaces the value in place (the iteration
position is kept); on a fresh key it appends at the end.  `Map.get`
returns the value of the first (unique) matching key. -/

/-- Model of `Map.get(k)` on an association list. -/
def mapGet? {κ β : Type} [DecidableEq κ] : List (κ × β) → κ → Option β
  | [], _ => none
  | (k', v) :: rest, k => if k' = k then some v else mapGet? rest k

/-- Model of `Map.set(k, v)`: replace in place if the key is present, else append. -/
def mapSet {κ β : Type} [DecidableEq κ] : List (κ × β) → κ → β → List (κ × β)
  | [], k, v => [(k, v)]
  | (k', v') :: rest, k, v =>
      if k' = k then (k', v) :: rest else (k', v') :: mapSet rest k v

/-! ### Month-year string keys

`processMonthlyTrends` and `processCategoryTrends` key their maps by the
string `` `${year}-${String(month).padStart(2, '0')}` `` and later recover
`(year, month)` with `key.split('-')` and `parseInt(part || '0')`. -/

/-- Model of `String(n).padStart(2, '0')`. -/
def pad2 (n : Nat) : String :=
  let s := toString n
  String.mk (List.replicate (2 - s.length) '0') ++ s

/-- The map key `` `${year}-${String(month).padStart(2, '0')}` ``. -/
def monthYearKey (year month : Nat) : String :=
  toString year ++ "-" ++ pad2 month

/-- The value of a decimal digit string, as computed by `parseInt` on the
all-digit parts produced by `monthYearKey`. -/
def digitsToNat (cs : List Char) : Nat :=
  cs.foldl (fun n c => n * 10 + (c.toNat - '0'.toNat)) 0

/-- Model of `parseInt(part || '0')` for the digit strings produced by
`monthYearKey` (the `|| '0'` guards the empty string, which is falsy). -/
def parsePart (s : String) : Nat :=
  digitsToNat (if s = "" then "0" else s).toList

/-- Model of `String.prototype.split('-')` on the character list: cut at every
`'-'`, keeping empty parts. -/
def splitDash : List Char → List Char → List String
  | [], acc => [String.mk acc.reverse]
  | c :: rest, acc =>
      if c = '-' then String.mk acc.reverse :: splitDash rest []
      else splitDash rest (c :: acc)

/-- Model of `const [year, month] = key.split('-')` followed by `parseInt` on each
part, returning `(year, month)`. -/
def splitKey (key : String) : Nat × Nat :=
  let parts := splitDash key.toList []
  (parsePart (parts.getD 0 ""), parsePart (parts.getD 1 ""))

/-! ### The accumulation pass shared by the three `process*Trends` loops

Each of `processMonthlyTrends`, `processYearlyTrends` and
`processCategoryTrends` runs the same `expenses.forEach` body: look the
record's outer key up in a `Map` (inserting `{totalAmount: 0, inner: new
Map()}` when absent), add the amount to the group total, and add the
amount to the inner breakdown entry for the record's inner key.  Only the
two key functions differ, so the pass is defined once. -/

/-- One group accumulator: `{ totalAmount, inner breakdown map }`. -/
abbrev GroupAcc (ι : Type) : Type := Int × List (ι × Int)

/-- The `forEach` body: look the group up (an absent group starts as
`{totalAmount: 0, inner: new Map()}`), add the amount to the group total
and to the record's inner breakdown entry.  Addition here is exact —
the idealized 2-decimal semantics of §4.2; the source's `+=` runs on
binary64 doubles, which `accumStepFP` models faithfully. -/
def accumStep {κ ι : Type} [DecidableEq κ] [DecidableEq ι]
    (keyOf : Cost → κ) (innerOf : Cost → ι) (m : List (κ × GroupAcc ι))
    (e : Cost) : List (κ × GroupAcc ι) :=
  let cur := (mapGet? m (keyOf e)).getD (0, [])
  let innerCur := (mapGet? cur.2 (innerOf e)).getD 0
  mapSet m (keyOf e)
    (cur.1 + e.amount, mapSet cur.2 (innerOf e) (innerCur + e.amount))

/-- The shared `expenses.forEach` accumulation loop. -/
def accumGroups {κ ι : Type} [DecidableEq κ] [DecidableEq ι]
    (keyOf : Cost → κ) (innerOf : Cost → ι) (expenses : List Cost) :
    List (κ × GroupAcc ι) :=
  expenses.foldl (accumStep keyOf innerOf) []

/-! ### Trend output shapes (`types/expense`) -/

structure CategoryAmount where
  category : String
  amount : Int
  deriving DecidableEq, Repr

structure MonthlyTrendData where
  month : Nat
  year : Nat
  totalAmount : Int
  categoryBreakdown : List CategoryAmount
  deriving DecidableEq, Repr

structure YearlyTrendData where
  year : Nat
  totalAmount : Int
  categoryBreakdown : List CategoryAmount
  deriving DecidableEq, Repr

structure MonthAmount where
  month : Nat
  year : Nat
  amount : Int
  deriving DecidableEq, Repr

structure CategoryTrendData where
  category : String
  totalAmount : Int
  monthlyBreakdown : List MonthAmount
  deriving DecidableEq, Repr

/-- The summary block; `averageAmount` is the exact quotient
`totalAmount / groupCount` (0 when no groups). -/
structure TrendsSummary where
  totalAmount : Int
  averageAmount : ℚ
  highestAmount : Int
  lowestAmount : Int
  deriving DecidableEq, Repr

/-- Model of `Math.max(...amounts)` guarded by `amounts.length > 0 ? _ : 0`. -/
def amountsMax : List Int → Int
  | [] => 0
  | a :: rest => rest.foldl max a

/-- Model of `Math.min(...amounts)` guarded by `amounts.length > 0 ? _ : 0`. -/
def amountsMin : List Int → Int
  | [] => 0
  | a :: rest => rest.foldl min a

/-- The summary block each `process*Trends` computes over the group
totals: total, average (0 when no groups), max and min (0 when no
groups). -/
def mkSummary (amounts : List Int) : TrendsSummary :=
  let totalAmount := amounts.foldl (· + ·) 0
  { totalAmount := totalAmount
    averageAmount :=
      if amounts.length > 0 then (totalAmount : ℚ) / (amounts.length : ℚ) else 0
    highestAmount := amountsMax amounts
    lowestAmount := amountsMin amounts }

/-! ### The three grouping modes -/

/-- Ascending `(a, b) => a.year - b.year || a.month - b.month`. -/
def monthlyLe (a b : MonthlyTrendData) : Prop :=
  a.year < b.year ∨ (a.year = b.year ∧ a.month ≤ b.month)

instance : DecidableRel monthlyLe := fun a b => by
  unfold monthlyLe; infer_instance

/-- Model of `ExpenseService.processMonthlyTrends`: accumulate by the
`monthYearKey` string with a per-category breakdown, convert map entries
to `MonthlyTrendData` (re-parsing year and month out of the key), sort
ascending by `(year, month)`, and summarize the group totals. -/
def processMonthlyTrends (expenses : List Cost) :
    List MonthlyTrendData × TrendsSummary :=
  let m := accumGroups (fun e => monthYearKey e.year e.month)
    (fun e => e.category) expenses
  let data : List MonthlyTrendData := m.map fun kv =>
    let ym := splitKey kv.1
    { month := ym.2
      year := ym.1
      totalAmount := kv.2.1
      categoryBreakdown := kv.2.2.map fun ca =>
        { category := ca.1, amount := ca.2 } }
  let sorted := data.insertionSort monthlyLe
  (sorted, mkSummary (sorted.map MonthlyTrendData.totalAmount))

/-- Ascending `(a, b) => a.year - b.year`. -/
def yearlyLe (a b : YearlyTrendData) : Prop := a.year ≤ b.year

instance : DecidableRel yearlyLe := fun a b => by
  unfold yearlyLe; infer_instance

/-- Model of `ExpenseService.processYearlyTrends`: accumulate by the year number
with a per-category breakdown, sort ascending by year, and summarize. -/
def processYearlyTrends (expenses : List Cost) :
    List YearlyTrendData × TrendsSummary :=
  let m := accumGroups (fun e => e.year) (fun e => e.category) expenses
  let data : List YearlyTrendData := m.map fun kv =>
    { year := kv.1
      totalAmount := kv.2.1
      categoryBreakdown := kv.2.2.map fun ca =>
        { category := ca.1, amount := ca.2 } }
  let sorted := data.insertionSort yearlyLe
  (sorted, mkSummary (sorted.map YearlyTrendData.totalAmount))

/-- Inner sort of a category's months: ascending by `(year, month)`. -/
def monthAmountLe (a b : MonthAmount) : Prop :=
  a.year < b.year ∨ (a.year = b.year ∧ a.month ≤ b.month)

instance : DecidableRel monthAmountLe := fun a b => by
  unfold monthAmountLe; infer_instance

/-- Descending `(a, b) => b.totalAmount - a.totalAmount`. -/
def categoryGe (a b : CategoryTrendData) : Prop :=
  b.totalAmount ≤ a.totalAmount

instance : DecidableRel categoryGe := fun a b => by
  unfold categoryGe; infer_instance

/-- Model of `ExpenseService.processCategoryTrends`: accumulate by category with a
per-`monthYearKey` breakdown, convert each breakdown entry back to
`(year, month)` and sort it ascending, sort the groups descending by
`totalAmount`, and summarize. -/
def processCategoryTrends (expenses : List Cost) :
    List CategoryTrendData × TrendsSummary :=
  let m := accumGroups (fun e => e.category)
    (fun e => monthYearKey e.year e.month) expenses
  let data : List CategoryTrendData := m.map fun kv =>
    { category := kv.1
      totalAmount := kv.2.1
      monthlyBreakdown :=
        (kv.2.2.map fun ma =>
          let ym := splitKey ma.1
          { month := ym.2, year := ym.1, amount := ma.2 : MonthAmount }
        ).insertionSort monthAmountLe }
  let sorted := data.insertionSort categoryGe
  (sorted, mkSummary (sorted.map CategoryTrendData.totalAmount))

/-! ### Binary64 semantics of the aggregator's arithmetic

The source converts each amount with `Number(expense.amount)` and
accumulates with `+=` on JavaScript numbers, i.e. IEEE-754 binary64
doubles (`expenseService.ts` lines 308, 360, 408).  A double's value is
a dyadic rational `m·2^e`; binary64 addition is exact addition followed
by rounding to 53 significant bits, round-to-nearest, ties-to-even.
That rule is modelled here exactly for results in the normal range —
overflow, underflow and subnormals cannot arise at the magnitudes
`DECIMAL(12,2)` admits. -/

/-- The exact value `m·2^e` of a binary64 double (representations are
not required to be canonical). -/
structure Dyadic where
  m : Int
  e : Int
  deriving DecidableEq, Repr

/-- Exact addition of dyadic values, aligning to the smaller exponent. -/
def Dyadic.addExact (x y : Dyadic) : Dyadic :=
  let e := min x.e y.e
  ⟨x.m * 2 ^ (x.e - e).toNat + y.m * 2 ^ (y.e - e).toNat, e⟩

/-- Equality of the represented values. -/
def Dyadic.beqVal (x y : Dyadic) : Bool :=
  let e := min x.e y.e
  x.m * 2 ^ (x.e - e).toNat == y.m * 2 ^ (y.e - e).toNat

/-- Fuelled floor of `log₂` (fuel `n` always suffices for `log2Fuel n n`). -/
def log2Fuel : Nat → Nat → Nat
  | 0, _ => 0
  | fuel + 1, n => if n ≥ 2 then log2Fuel fuel (n / 2) + 1 else 0

/-- Number of binary digits of `n` (0 for 0). -/
def bitLen (n : Nat) : Nat :=
  if n = 0 then 0 else log2Fuel n n + 1

/-- Round `n / 2^k` to the nearest integer, ties to even. -/
def rne (n k : Nat) : Nat :=
  let q := n / 2 ^ k
  let r := n % 2 ^ k
  if 2 * r < 2 ^ k then q
  else if 2 ^ k < 2 * r then q + 1
  else if q % 2 = 0 then q else q + 1

/-- Round a dyadic value to 53 significant bits, round-to-nearest,
ties-to-even: the binary64 rounding of an exact sum in the normal
range. -/
def Dyadic.round53 (x : Dyadic) : Dyadic :=
  let n := x.m.natAbs
  if bitLen n ≤ 53 then x
  else
    let k := bitLen n - 53
    let r := rne n k
    ⟨if x.m < 0 then -(r : Int) else (r : Int), x.e + k⟩

/-- JavaScript `+` on numbers: binary64 addition. -/
def fpAdd (x y : Dyadic) : Dyadic :=
  (x.addExact y).round53

/-- The binary64 value of `0.1`: `3602879701896397·2⁻⁵⁵`. -/
def fp01 : Dyadic := ⟨3602879701896397, -55⟩

/-- The binary64 value of `0.2`: `3602879701896397·2⁻⁵⁴`. -/
def fp02 : Dyadic := ⟨3602879701896397, -54⟩

/-- The binary64 value of `0.3`: `5404319552844595·2⁻⁵⁴`. -/
def fp03 : Dyadic := ⟨5404319552844595, -54⟩

/-- An expense record as the `process*Trends` loops see it: the fields
they read, the amount already converted by `Number(expense.amount)` to
a binary64 double. -/
structure CostFP where
  category : String
  amount : Dyadic
  month : Nat
  year : Nat
  deriving DecidableEq, Repr

/-- The `forEach` body with the two `+=` accumulations as binary64
additions — the arithmetic the source actually performs (cf.
`accumStep`). -/
def accumStepFP {κ ι : Type} [DecidableEq κ] [DecidableEq ι]
    (keyOf : CostFP → κ) (innerOf : CostFP → ι)
    (m : List (κ × (Dyadic × List (ι × Dyadic)))) (e : CostFP) :
    List (κ × (Dyadic × List (ι × Dyadic))) :=
  let cur := (mapGet? m (keyOf e)).getD (⟨0, 0⟩, [])
  let innerCur := (mapGet? cur.2 (innerOf e)).getD ⟨0, 0⟩
  mapSet m (keyOf e)
    (fpAdd cur.1 e.amount, mapSet cur.2 (innerOf e) (fpAdd innerCur e.amount))

/-- The shared accumulation loop over binary64 arithmetic. -/
def accumGroupsFP {κ ι : Type} [DecidableEq κ] [DecidableEq ι]
    (keyOf : CostFP → κ) (innerOf : CostFP → ι) (expenses : List CostFP) :
    List (κ × (Dyadic × List (ι × Dyadic))) :=
  expenses.foldl (accumStepFP keyOf innerOf) []

structure CategoryAmountFP where
  category : String
  amount : Dyadic
  deriving DecidableEq, Repr

structure YearlyTrendDataFP where
  year : Nat
  totalAmount : Dyadic
  categoryBreakdown : List CategoryAmountFP
  deriving DecidableEq, Repr

/-- Ascending `(a, b) => a.year - b.year`, as in `processYearlyTrends`. -/
def yearlyLeFP (a b : YearlyTrendDataFP) : Prop := a.year ≤ b.year

instance : DecidableRel yearlyLeFP := fun a b => by
  unfold yearlyLeFP; infer_instance

/-- Model of `ExpenseService.processYearlyTrends` over the source's
binary64 arithmetic: the grouped data with per-category breakdowns,
sorted ascending by year (the summary block is not involved in the
reconciliation claims). -/
def processYearlyTrendsFP (expenses : List CostFP) : List YearlyTrendDataFP :=
  let m := accumGroupsFP (fun e => e.year) (fun e => e.category) expenses
  (m.map fun kv =>
    { year := kv.1
      totalAmount := kv.2.1
      categoryBreakdown := kv.2.2.map fun ca =>
        { category := ca.1, amount := ca.2 } }
  ).insertionSort yearlyLeFP

/-- Three store-valid records — distinct `(category, month, year)`
triples (the live unique constraint), months in 1..12, year 2024,
positive 2-decimal amounts 0.20, 0.30, 0.10 — listed in the store's
`(year, month, category)` fetch order. -/
def fpDriftExpenses : List CostFP :=
  [ ⟨"Salaries", fp02, 1, 2024⟩,
    ⟨"Marketing", fp03, 1, 2024⟩,
    ⟨"Salaries", fp01, 2, 2024⟩ ]

/-- The spec's §8 monthly-grouping example records:
`(Salaries, 1, 2024, 50000)`, `(SoftwareTools, 1, 2024, 2000)`,
`(Salaries, 2, 2024, 51000)`, already in the store's
`(year, month, category)` order. -/
def specExampleExpenses : List Cost :=
  [ ⟨1, "Salaries", 50000, 1, 2024, 10, 10⟩,
    ⟨2, "SoftwareTools", 2000, 1, 2024, 11, 11⟩,
    ⟨3, "Salaries", 51000, 2, 2024, 12, 12⟩ ]

/-- The §8 archival example: five live records older than the cutoff
(`createdAt` 1–5, cutoff 10), to be archived with `batchSize = 2` in
three batches of sizes 2, 2, 1. -/
def archiveExampleLive : List Cost :=
  [ ⟨1, "Salaries", 100, 1, 2020, 1, 1⟩,
    ⟨2, "Salaries", 200, 2, 2020, 2, 2⟩,
    ⟨3, "Marketing", 300, 3, 2020, 3, 3⟩,
    ⟨4, "Travel", 400, 4, 2020, 4, 4⟩,
    ⟨5, "Equipment", 500, 5, 2020, 5, 5⟩ ]

/-- The archive store after successfully archiving `archiveExampleLive`
at time 99. -/
def archiveExampleArchived : List ArchivedCost :=
  [ ⟨1, "Salaries", 100, 1, 2020, 1, 1, 99⟩,
    ⟨2, "Salaries", 200, 2, 2020, 2, 2, 99⟩,
    ⟨3, "Marketing", 300, 3, 2020, 3, 3, 99⟩,
    ⟨4, "Travel", 400, 4, 2020, 4, 4, 99⟩,
    ⟨5, "Equipment", 500, 5, 2020, 5, 5, 99⟩ ]

/-! ### Range resolution (`ExpenseService.getTrends`, lines 197–252)

`getTrends` builds a Prisma `where` object from the query's
`startYear`/`endYear`/`startMonth?`/`endMonth?`: a single year/month
clause when `startYear === endYear`, otherwise an `OR` of a start-year
clause, an optional strictly-between-years clause, and an end-year
clause.  The embedding keeps the clause structure and interprets it with
Prisma's semantics (`OR` = any sub-clause matches; absent fields are
unconstrained). -/

/-- A Prisma filter on `year`: `query.year = y` or `{ gt, lt }`. -/
inductive YearFilter where
  | eq (y : Nat)
  | between (gtY ltY : Nat)
  deriving DecidableEq, Repr

/-- A Prisma filter on `month`: `{ gte }`, `{ lte }`, or `{ gte, lte }`. -/
inductive MonthFilter where
  | gte (m : Nat)
  | lte (m : Nat)
  | range (lo hi : Nat)
  deriving DecidableEq, Repr

/-- One `where` clause over `(year, month)`. -/
structure TrendClause where
  year : Option YearFilter
  month : Option MonthFilter
  deriving DecidableEq, Repr

/-- The `where` object `getTrends` builds: top-level year/month filters
(same-year branch), an `OR` list (multi-year branch), and the optional
category filter. -/
structure TrendsWhere where
  base : TrendClause
  orClauses : List TrendClause
  category : Option String
  deriving DecidableEq, Repr

/-- The trends query after validation (`startYear`/`endYear` required,
months and category optional). -/
structure TrendsQuery where
  startYear : Nat
  endYear : Nat
  startMonth : Option Nat
  endMonth : Option Nat
  category : Option String
  deriving DecidableEq, Repr

/-- JavaScript truthiness of an optional number (`if (query.startMonth)`):
present and non-zero. -/
def isTruthy (o : Option Nat) : Bool :=
  (o.getD 0) != 0

/-- The `where` construction of `getTrends`, translated branch by
branch. -/
def buildTrendsWhere (q : TrendsQuery) : TrendsWhere :=
  if q.startYear = q.endYear then
    -- Same year - handle month range if provided
    { base :=
        { year := some (.eq q.startYear)
          month :=
            if isTruthy q.startMonth && isTruthy q.endMonth then
              some (.range (q.startMonth.getD 0) (q.endMonth.getD 0))
            else if isTruthy q.startMonth then
              some (.gte (q.startMonth.getD 0))
            else if isTruthy q.endMonth then
              some (.lte (q.endMonth.getD 0))
            else none }
      orClauses := []
      category := q.category }
  else
    -- Multiple years: start-year clause, middle-years clause, end-year clause
    let startClause : TrendClause :=
      if isTruthy q.startMonth then
        { year := some (.eq q.startYear), month := some (.gte (q.startMonth.getD 0)) }
      else
        { year := some (.eq q.startYear), month := none }
    let middleClauses : List TrendClause :=
      if q.endYear - q.startYear > 1 then
        [{ year := some (.between q.startYear q.endYear), month := none }]
      else []
    let endClause : TrendClause :=
      if isTruthy q.endMonth then
        { year := some (.eq q.endYear), month := some (.lte (q.endMonth.getD 0)) }
      else
        { year := some (.eq q.endYear), month := none }
    { base := { year := none, month := none }
      orClauses := startClause :: middleClauses ++ [endClause]
      category := q.category }

/-- Prisma semantics of one clause at a record's `(year, month)`. -/
def clauseMatches (c : TrendClause) (y m : Nat) : Bool :=
  (match c.year with
    | none => true
    | some (.eq y0) => y == y0
    | some (.between a b) => a < y && y < b) &&
  (match c.month with
    | none => true
    | some (.gte lo) => lo ≤ m
    | some (.lte hi) => m ≤ hi
    | some (.range lo hi) => lo ≤ m && m ≤ hi)

/-- Prisma semantics of the whole `where` object at a record: the base
clause, the `OR` list (vacuous when absent/empty), and the category
filter must all hold. -/
def whereMatches (w : TrendsWhere) (y m : Nat) (cat : String) : Bool :=
  clauseMatches w.base y m &&
  (w.orClauses.isEmpty || w.orClauses.any fun c => clauseMatches c y m) &&
  (match w.category with
    | none => true
    | some c0 => cat == c0)

/-! ### Range-ordering validation (`trendsQuerySchema`, validation/expense.ts)

The Joi `.custom` step rejects `endYear < startYear`, and, when the two
years are equal and both months are (truthily) present, `endMonth <
startMonth`. -/

/-- Returns `true` iff the custom validation step of `trendsQuerySchema` returns
`helpers.error('any.invalid', ...)` on range ordering. -/
def trendsRangeInvalid (startYear endYear : Nat)
    (startMonth endMonth : Option Nat) : Bool :=
  if endYear < startYear then true
  else if startYear == endYear && isTruthy startMonth && isTruthy endMonth then
    endMonth.getD 0 < startMonth.getD 0
  else false

/-- The spec's wording of the failure condition (§4.1 / §8): `RangeError`
when `endYear < startYear`, or when `startYear == endYear` and both
months are given with `endMonth < startMonth`. -/
def SpecRangeErrorCond (startYear endYear : Nat)
    (startMonth endMonth : Option Nat) : Prop :=
  endYear < startYear ∨
    (startYear = endYear ∧
      ∃ sm ∈ startMonth, ∃ em ∈ endMonth, em < sm)

instance (sy ey : Nat) (sm em : Option Nat) :
    Decidable (SpecRangeErrorCond sy ey sm em) := by
  unfold SpecRangeErrorCond; infer_instance

/-! ### Archive manager (`backend/src/services/archiveService.ts`)

The live store and archive store are lists of records; Prisma calls
become pure list operations:

* `prisma.cost.count / findMany (lt cutoff, orderBy createdAt asc,
  take/skip)` — filter, stable sort by `createdAt`, `drop/take`;
* `archiveBatch` — a multi-row `INSERT … ON CONFLICT (id) DO NOTHING`
  with `archived_at = CURRENT_TIMESTAMP`;
* `prisma.cost.deleteMany (lt cutoff)` — filter;
* `prisma.cost.upsert` — update-in-place or append.

`$executeRawUnsafe` can throw; a run is parameterized by `failAt : Nat →
Bool` saying whether the batch write of batch index `k` throws.  The
store state (live, archive) is returned alongside the `Except` outcome,
since a thrown error leaves both stores as they were at the throw. -/

/-- The migration result `{ archivedCount, deletedCount, cutoffDate }`. -/
structure ArchiveResult where
  archivedCount : Nat
  deletedCount : Nat
  cutoffDate : Nat
  deriving DecidableEq, Repr

/-- Errors the archive operations can surface.  `storeError` stands for a
thrown persistence error; `rangeError` is the `RangeError` named by the
spec for bad restore bounds (no code path in the source raises it). -/
inductive ArchiveError where
  | storeError
  | rangeError
  deriving DecidableEq, Repr

/-- Decidable equality of outcomes, for concrete evaluation. -/
instance {ε α : Type} [DecidableEq ε] [DecidableEq α] :
    DecidableEq (Except ε α) := fun x y =>
  match x, y with
  | .error a, .error b =>
      if h : a = b then .isTrue (by rw [h])
      else .isFalse (fun hc => h (by injection hc))
  | .error _, .ok _ => .isFalse (fun hc => Except.noConfusion hc)
  | .ok _, .error _ => .isFalse (fun hc => Except.noConfusion hc)
  | .ok a, .ok b =>
      if h : a = b then .isTrue (by rw [h])
      else .isFalse (fun hc => h (by injection hc))

/-- The archive row written for a live record: same columns plus
`archived_at = CURRENT_TIMESTAMP`. -/
def toArchived (now : Nat) (c : Cost) : ArchivedCost :=
  { id := c.id, category := c.category, amount := c.amount
    month := c.month, year := c.year
    createdAt := c.createdAt, updatedAt := c.updatedAt
    archivedAt := now }

/-- Model of `ArchiveService.archiveBatch`: insert the batch rows with
`ON CONFLICT (id) DO NOTHING` — a row whose `id` is already present in
the archive (including one inserted earlier in the same statement) is
skipped. -/
def archiveBatch (now : Nat) (archive : List ArchivedCost)
    (batch : List Cost) : List ArchivedCost :=
  batch.foldl
    (fun ar c =>
      if ar.any (fun a => a.id == c.id) then ar else ar ++ [toArchived now c])
    archive

/-- Model of `orderBy: (createdAt asc)` on the qualifying records.  The sort
is modelled by Mathlib's stable `insertionSort`. -/
def sortByCreatedAt (l : List Cost) : List Cost :=
  l.insertionSort fun a b => a.createdAt ≤ b.createdAt

/-- The batch loop of `archiveOldData`: `while (offset <
recordsToArchive)` visits offsets `0, b, 2b, …`, i.e. batch indices `k <
⌈count / b⌉`; batch `k` is `findMany(take: b, skip: k·b)` over the
unchanged qualifying set (never empty for those offsets, so the
`batch.length === 0` break does not fire).  A batch whose write throws
ends the run with an error carrying the archive as already written. -/
def archiveRunBatches (now b : Nat) (failAt : Nat → Bool) (q : List Cost)
    (archive : List ArchivedCost) :
    Except (List ArchivedCost) (List ArchivedCost × Nat) :=
  (List.range ((q.length + b - 1) / b)).foldl
    (fun st k =>
      match st with
      | .error ar => .error ar
      | .ok (ar, acc) =>
          if failAt k then .error ar
          else
            let batch := (q.drop (k * b)).take b
            .ok (archiveBatch now ar batch, acc + batch.length))
    (.ok (archive, 0))

/-- Model of `ArchiveService.archiveOldData` for a given cutoff: count the live
records with `createdAt < cutoff`; return a no-op result when none;
otherwise migrate them in batches of `b` and, only after every batch
succeeded, bulk-delete them from the live store.  Returns the outcome
together with the final (live, archive) stores. -/
def archiveOldData (cutoff b now : Nat) (failAt : Nat → Bool)
    (live : List Cost) (archive : List ArchivedCost) :
    Except Unit ArchiveResult × List Cost × List ArchivedCost :=
  let qualifying := live.filter fun c => c.createdAt < cutoff
  if qualifying.length = 0 then
    (.ok { archivedCount := 0, deletedCount := 0, cutoffDate := cutoff },
     live, archive)
  else
    let q := sortByCreatedAt qualifying
    match archiveRunBatches now b failAt q archive with
    | .error ar => (.error (), live, ar)
    | .ok (ar, archivedCount) =>
        let remaining := live.filter fun c => ¬ c.createdAt < cutoff
        (.ok { archivedCount := archivedCount
               deletedCount := qualifying.length
               cutoffDate := cutoff },
         remaining, ar)

/-- The `create` branch of `prisma.cost.upsert` in the restore loop: a
live row rebuilt from the archived row, keeping its timestamps. -/
def restoredCost (r : ArchivedCost) : Cost :=
  { id := r.id, category := r.category, amount := r.amount
    month := r.month, year := r.year
    createdAt := r.createdAt, updatedAt := r.updatedAt }

/-- Model of one `prisma.cost.upsert` call of the restore loop
(update on id collision, create otherwise): when a live record
with the archived row's `id` exists, overwrite its `category`, `amount`,
`month`, `year` and `updatedAt` (keeping `createdAt` and `id`); otherwise
append the `restoredCost` row. -/
def upsertCost (now : Nat) (live : List Cost) (r : ArchivedCost) :
    List Cost :=
  if live.any (fun c => c.id == r.id) then
    live.map fun c =>
      if c.id == r.id then
        { c with category := r.category, amount := r.amount
                 month := r.month, year := r.year, updatedAt := now }
      else c
  else
    live ++ [restoredCost r]

/-- Model of `ArchiveService.restoreFromArchive`: select the archive rows with
`created_at` in `[startDate, endDate]` and upsert each into the live
store; the archive itself is not modified.  The source performs no
ordering check on the two dates. -/
def restoreFromArchive (startDate endDate now : Nat) (live : List Cost)
    (archive : List ArchivedCost) : Except ArchiveError (Nat × List Cost) :=
  let records := archive.filter fun a =>
    startDate ≤ a.createdAt && a.createdAt ≤ endDate
  if records.length = 0 then .ok (0, live)
  else .ok (records.length, records.foldl (upsertCost now) live)

/-! ## Lemmas about the association-list `Map` operations -/

theorem mapGet?_mem {κ β : Type} [DecidableEq κ] {m : List (κ × β)} {k : κ}
    {v : β} (h : mapGet? m k = some v) : (k, v) ∈ m := by
  induction m with
  | nil => simp [mapGet?] at h
  | cons hd tl ih =>
      obtain ⟨k', v'⟩ := hd
      by_cases hk : k' = k
      · subst hk
        simp [mapGet?] at h
        simp [h]
      · simp [mapGet?, hk] at h
        exact List.mem_cons_of_mem _ (ih h)

theorem mem_mapSet {κ β : Type} [DecidableEq κ] {m : List (κ × β)} {k : κ}
    {v : β} {kv : κ × β} (h : kv ∈ mapSet m k v) : kv = (k, v) ∨ kv ∈ m := by
  induction m with
  | nil => simpa [mapSet] using h
  | cons hd tl ih =>
      obtain ⟨k', v'⟩ := hd
      by_cases hk : k' = k
      · subst hk
        simp [mapSet] at h
        rcases h with h | h
        · exact Or.inl (by simp [h])
        · exact Or.inr (List.mem_cons_of_mem _ h)
      · simp [mapSet, hk] at h
        rcases h with h | h
        · exact Or.inr (by simp [h])
        · rcases ih h with h' | h'
          · exact Or.inl h'
          · exact Or.inr (List.mem_cons_of_mem _ h')

theorem mapGet?_eq_none_iff {κ β : Type} [DecidableEq κ] {m : List (κ × β)}
    {k : κ} : mapGet? m k = none ↔ k ∉ m.map Prod.fst := by
  induction m with
  | nil => simp [mapGet?]
  | cons hd tl ih =>
      obtain ⟨k', v'⟩ := hd
      by_cases hk : k' = k
      · subst hk; simp [mapGet?]
      · have hstep : mapGet? ((k', v') :: tl) k = mapGet? tl k := by
          simp [mapGet?, hk]
        rw [hstep, ih]
        simp only [List.map_cons, List.mem_cons]
        constructor
        · intro h hc
          rcases hc with hc | hc
          · exact hk hc.symm
          · exact h hc
        · intro h hc
          exact h (Or.inr hc)

theorem keys_mapSet {κ β : Type} [DecidableEq κ] (m : List (κ × β)) (k : κ)
    (v : β) :
    (mapSet m k v).map Prod.fst =
      if (mapGet? m k).isNone then m.map Prod.fst ++ [k]
      else m.map Prod.fst := by
  induction m with
  | nil => simp [mapSet, mapGet?]
  | cons hd tl ih =>
      obtain ⟨k', v'⟩ := hd
      by_cases hk : k' = k
      · subst hk; simp [mapSet, mapGet?]
      · simp only [mapSet, if_neg hk, List.map_cons]
        have hstep : mapGet? ((k', v') :: tl) k = mapGet? tl k := by
          simp [mapGet?, hk]
        rw [hstep, ih]
        by_cases hnone : (mapGet? tl k).isNone <;> simp [hnone]

theorem nodup_keys_mapSet {κ β : Type} [DecidableEq κ] {m : List (κ × β)}
    {k : κ} {v : β} (h : (m.map Prod.fst).Nodup) :
    ((mapSet m k v).map Prod.fst).Nodup := by
  rw [keys_mapSet]
  by_cases hnone : (mapGet? m k).isNone
  · rw [if_pos hnone]
    refine h.append (List.nodup_singleton k) ?_
    intro a ha hb
    simp only [List.mem_singleton] at hb
    subst hb
    exact (mapGet?_eq_none_iff.mp (Option.isNone_iff_eq_none.mp hnone)) ha
  · rwa [if_neg hnone]

/-! ## The aggregation invariant: group totals equal breakdown sums -/

theorem snd_sum_mapSet_getD {ι : Type} [DecidableEq ι] (inner : List (ι × Int))
    (i : ι) (a : Int) :
    ((mapSet inner i ((mapGet? inner i).getD 0 + a)).map Prod.snd).sum =
      (inner.map Prod.snd).sum + a := by
  induction inner with
  | nil => simp [mapSet, mapGet?]
  | cons hd tl ih =>
      obtain ⟨k', v'⟩ := hd
      by_cases hk : k' = i
      · subst hk
        simp [mapSet, mapGet?]
        ring
      · simp only [mapSet, mapGet?, if_neg hk, List.map_cons, List.sum_cons,
          ih]
        ring

/-- Invariant of the shared accumulation loop: every group's running
`totalAmount` is exactly the sum of its inner breakdown values. -/
theorem accumGroups_total_eq_sum {κ ι : Type} [DecidableEq κ] [DecidableEq ι]
    (keyOf : Cost → κ) (innerOf : Cost → ι) (expenses : List Cost) :
    ∀ kv ∈ accumGroups keyOf innerOf expenses,
      kv.2.1 = (kv.2.2.map Prod.snd).sum := by
  suffices h : ∀ (es : List Cost) (m : List (κ × GroupAcc ι)),
      (∀ kv ∈ m, kv.2.1 = (kv.2.2.map Prod.snd).sum) →
      ∀ kv ∈ es.foldl (accumStep keyOf innerOf) m,
      kv.2.1 = (kv.2.2.map Prod.snd).sum by
    intro kv hkv
    exact h expenses [] (by simp) kv hkv
  intro es
  induction es with
  | nil => intro m hm kv hkv; exact hm kv hkv
  | cons e rest ih =>
      intro m hm kv hkv
      refine ih _ ?_ kv hkv
      intro kv' hkv'
      rcases mem_mapSet (m := m) (κ := κ) hkv' with h' | h'
      · subst h'
        have hcur : ((mapGet? m (keyOf e)).getD (0, [])).1 =
            ((((mapGet? m (keyOf e)).getD (0, []))).2.map Prod.snd).sum := by
          cases hget : mapGet? m (keyOf e) with
          | none => simp
          | some v => simpa using hm (keyOf e, v) (mapGet?_mem hget)
        simp only
        rw [snd_sum_mapSet_getD, ← hcur]
      · exact hm kv' h'

/-- Claim C1 as amended: when amounts are accumulated in exact
2-decimal arithmetic — the numeric semantics §4.2 prescribes, instead
of the binary64 doubles the source actually uses — every trend group's
`totalAmount` equals the exact sum of the amounts in its breakdown
(`categoryBreakdown` for monthly/yearly groups, `monthlyBreakdown` for
category groups), in every grouping mode.  Under the source's double
accumulation the equality can fail by reassociation (see the
counterexample on `processYearlyTrendsFP`). -/
theorem trend_totalAmount_eq_breakdown_sum (expenses : List Cost) :
    (∀ g ∈ (processMonthlyTrends expenses).1,
        g.totalAmount = (g.categoryBreakdown.map CategoryAmount.amount).sum) ∧
    (∀ g ∈ (processYearlyTrends expenses).1,
        g.totalAmount = (g.categoryBreakdown.map CategoryAmount.amount).sum) ∧
    (∀ g ∈ (processCategoryTrends expenses).1,
        g.totalAmount = (g.monthlyBreakdown.map MonthAmount.amount).sum) := by
  refine ⟨?_, ?_, ?_⟩
  · intro g hg
    rw [processMonthlyTrends] at hg
    simp only [List.mem_insertionSort, List.mem_map] at hg
    obtain ⟨kv, hkv, rfl⟩ := hg
    have := accumGroups_total_eq_sum
      (fun e => monthYearKey e.year e.month) (fun e => e.category)
      expenses kv hkv
    simpa [List.map_map, Function.comp] using this
  · intro g hg
    rw [processYearlyTrends] at hg
    simp only [List.mem_insertionSort, List.mem_map] at hg
    obtain ⟨kv, hkv, rfl⟩ := hg
    have := accumGroups_total_eq_sum
      (fun e => e.year) (fun e => e.category) expenses kv hkv
    simpa [List.map_map, Function.comp] using this
  · intro g hg
    rw [processCategoryTrends] at hg
    simp only [List.mem_insertionSort, List.mem_map] at hg
    obtain ⟨kv, hkv, rfl⟩ := hg
    have h := accumGroups_total_eq_sum
      (fun e => e.category) (fun e => monthYearKey e.year e.month)
      expenses kv hkv
    have hperm : List.Perm
        (((kv.2.2.map fun ma =>
            let ym := splitKey ma.1
            ({ month := ym.2, year := ym.1, amount := ma.2 } : MonthAmount)
          ).insertionSort monthAmountLe).map MonthAmount.amount)
        (kv.2.2.map Prod.snd) := by
      refine ((List.perm_insertionSort monthAmountLe _).map _).trans ?_
      rw [List.map_map]
      exact List.Perm.refl _
    simpa using (hperm.sum_eq.trans h.symm).symm

/-- Closed witness for C1: the spec's §8 monthly-grouping example,
evaluated concretely. -/
theorem trend_totalAmount_eq_breakdown_sum_witness :
    ({ month := 1, year := 2024, totalAmount := 52000,
       categoryBreakdown := [⟨"Salaries", 50000⟩, ⟨"SoftwareTools", 2000⟩] } :
        MonthlyTrendData).totalAmount =
      (([⟨"Salaries", 50000⟩, ⟨"SoftwareTools", 2000⟩] :
          List CategoryAmount).map CategoryAmount.amount).sum :=
  (trend_totalAmount_eq_breakdown_sum specExampleExpenses).1
    { month := 1, year := 2024, totalAmount := 52000,
      categoryBreakdown := [⟨"Salaries", 50000⟩, ⟨"SoftwareTools", 2000⟩] }
    (by decide)

/-- Counterexample to claim C1: the aggregator folds
`Number(expense.amount)` with `+=` in binary64 doubles, and the
`totalAmount = sum(breakdown)` identity fails under that arithmetic.
Yearly grouping of `fpDriftExpenses` (store-valid records with amounts
0.20, 0.30, 0.10, the third sharing its category with the first) folds
the group total as `(0.2 + 0.3) + 0.1 = 0.6` but the Salaries breakdown
entry as `0.2 + 0.1 = 0.30000000000000004`, so `totalAmount` is one ulp
below the sum of the breakdown — whether that sum is taken exactly or
in binary64. -/
theorem trend_totalAmount_fp_drift_counterexample :
    processYearlyTrendsFP fpDriftExpenses =
      [{ year := 2024
         totalAmount := ⟨5404319552844595, -53⟩
         categoryBreakdown :=
           [ { category := "Salaries", amount := ⟨5404319552844596, -54⟩ },
             { category := "Marketing", amount := ⟨5404319552844595, -54⟩ } ] }] ∧
    Dyadic.beqVal ⟨5404319552844595, -53⟩
      (Dyadic.addExact ⟨5404319552844596, -54⟩ ⟨5404319552844595, -54⟩) =
      false ∧
    Dyadic.beqVal ⟨5404319552844595, -53⟩
      (fpAdd (fpAdd ⟨0, 0⟩ ⟨5404319552844596, -54⟩)
        ⟨5404319552844595, -54⟩) = false := by
  decide

/-! ## Round-trip of the month-year string key and key uniqueness -/

set_option maxRecDepth 100000 in
/-- With `year` and `month` in the validated ranges, parsing the
`"year-MM"` key recovers the pair (checked exhaustively over the 31×12
valid combinations). -/
theorem splitKey_monthYearKey_bounded :
    ∀ i < 31, ∀ j < 12,
      splitKey (monthYearKey (2020 + i) (1 + j)) = (2020 + i, 1 + j) := by
  decide

theorem splitKey_monthYearKey {y m : Nat} (hy1 : 2020 ≤ y) (hy2 : y ≤ 2050)
    (hm1 : 1 ≤ m) (hm2 : m ≤ 12) :
    splitKey (monthYearKey y m) = (y, m) := by
  have h := splitKey_monthYearKey_bounded (y - 2020) (by omega) (m - 1) (by omega)
  have e1 : 2020 + (y - 2020) = y := by omega
  have e2 : 1 + (m - 1) = m := by omega
  rw [e1, e2] at h
  exact h

theorem accumGroups_keys_nodup {κ ι : Type} [DecidableEq κ] [DecidableEq ι]
    (keyOf : Cost → κ) (innerOf : Cost → ι) (expenses : List Cost) :
    ((accumGroups keyOf innerOf expenses).map Prod.fst).Nodup := by
  suffices h : ∀ (es : List Cost) (m : List (κ × GroupAcc ι)),
      (m.map Prod.fst).Nodup →
      ((es.foldl (accumStep keyOf innerOf) m).map Prod.fst).Nodup by
    exact h expenses [] (by simp)
  intro es
  induction es with
  | nil => intro m hm; exact hm
  | cons e rest ih =>
      intro m hm
      exact ih _ (nodup_keys_mapSet hm)

/-- Every group key produced by the accumulation loop is the key of some
input record. -/
theorem accumGroups_key_spec {κ ι : Type} [DecidableEq κ] [DecidableEq ι]
    (keyOf : Cost → κ) (innerOf : Cost → ι) (Q : κ → Prop)
    (expenses : List Cost) (hes : ∀ c ∈ expenses, Q (keyOf c)) :
    ∀ kv ∈ accumGroups keyOf innerOf expenses, Q kv.1 := by
  suffices h : ∀ (es : List Cost) (m : List (κ × GroupAcc ι)),
      (∀ c ∈ es, Q (keyOf c)) → (∀ kv ∈ m, Q kv.1) →
      ∀ kv ∈ es.foldl (accumStep keyOf innerOf) m, Q kv.1 by
    exact h expenses [] hes (by simp)
  intro es
  induction es with
  | nil => intro m _ hm kv hkv; exact hm kv hkv
  | cons e rest ih =>
      intro m hes' hm kv hkv
      refine ih _ (fun c hc => hes' c (List.mem_cons_of_mem _ hc)) ?_ kv hkv
      intro kv' hkv'
      rcases mem_mapSet hkv' with h' | h'
      · subst h'; exact hes' e (List.mem_cons_self _ _)
      · exact hm kv' h'

theorem accumGroups_inner_keys_nodup {κ ι : Type} [DecidableEq κ]
    [DecidableEq ι] (keyOf : Cost → κ) (innerOf : Cost → ι)
    (expenses : List Cost) :
    ∀ kv ∈ accumGroups keyOf innerOf expenses,
      (kv.2.2.map Prod.fst).Nodup := by
  suffices h : ∀ (es : List Cost) (m : List (κ × GroupAcc ι)),
      (∀ kv ∈ m, (kv.2.2.map Prod.fst).Nodup) →
      ∀ kv ∈ es.foldl (accumStep keyOf innerOf) m,
        (kv.2.2.map Prod.fst).Nodup by
    exact h expenses [] (by simp)
  intro es
  induction es with
  | nil => intro m hm kv hkv; exact hm kv hkv
  | cons e rest ih =>
      intro m hm kv hkv
      refine ih _ ?_ kv hkv
      intro kv' hkv'
      rcases mem_mapSet hkv' with h' | h'
      · subst h'
        have hcur : ((((mapGet? m (keyOf e)).getD (0, []))).2.map
            Prod.fst).Nodup := by
          cases hget : mapGet? m (keyOf e) with
          | none => simp
          | some v => simpa using hm (keyOf e, v) (mapGet?_mem hget)
        exact nodup_keys_mapSet hcur
      · exact hm kv' h'

/-- Every inner-breakdown key produced by the accumulation loop is the
inner key of some input record. -/
theorem accumGroups_inner_key_spec {κ ι : Type} [DecidableEq κ]
    [DecidableEq ι] (keyOf : Cost → κ) (innerOf : Cost → ι) (Q : ι → Prop)
    (expenses : List Cost) (hes : ∀ c ∈ expenses, Q (innerOf c)) :
    ∀ kv ∈ accumGroups keyOf innerOf expenses, ∀ iv ∈ kv.2.2, Q iv.1 := by
  suffices h : ∀ (es : List Cost) (m : List (κ × GroupAcc ι)),
      (∀ c ∈ es, Q (innerOf c)) → (∀ kv ∈ m, ∀ iv ∈ kv.2.2, Q iv.1) →
      ∀ kv ∈ es.foldl (accumStep keyOf innerOf) m, ∀ iv ∈ kv.2.2, Q iv.1 by
    exact h expenses [] hes (by simp)
  intro es
  induction es with
  | nil => intro m _ hm kv hkv; exact hm kv hkv
  | cons e rest ih =>
      intro m hes' hm kv hkv
      refine ih _ (fun c hc => hes' c (List.mem_cons_of_mem _ hc)) ?_ kv hkv
      intro kv' hkv' iv hiv
      rcases mem_mapSet hkv' with h' | h'
      · subst h'
        rcases mem_mapSet hiv with h'' | h''
        · subst h''; exact hes' e (List.mem_cons_self _ _)
        · have hcur := hm
          cases hget : mapGet? m (keyOf e) with
          | none =>
              rw [hget] at h''
              simp at h''
          | some v =>
              rw [hget] at h''
              exact hm (keyOf e, v) (mapGet?_mem hget) iv h''
      · exact hm kv' h' iv hiv

/-- Claim C10: In every Trend Aggregator result the group keys and breakdown
keys are unique: monthly groups have pairwise-distinct `(year, month)`
pairs and no repeated category in a `categoryBreakdown`; yearly groups
have pairwise-distinct years; category groups have pairwise-distinct
categories and no repeated `(year, month)` pair in a
`monthlyBreakdown`. -/
theorem trend_group_keys_unique (expenses : List Cost)
    (hvalid : ∀ c ∈ expenses, ValidPeriod c) :
    ((processMonthlyTrends expenses).1.Pairwise fun g1 g2 =>
        ¬(g1.year = g2.year ∧ g1.month = g2.month)) ∧
    (∀ g ∈ (processMonthlyTrends expenses).1,
        (g.categoryBreakdown.map CategoryAmount.category).Nodup) ∧
    ((processYearlyTrends expenses).1.Pairwise fun g1 g2 =>
        g1.year ≠ g2.year) ∧
    (∀ g ∈ (processYearlyTrends expenses).1,
        (g.categoryBreakdown.map CategoryAmount.category).Nodup) ∧
    (((processCategoryTrends expenses).1.map
        CategoryTrendData.category).Nodup) ∧
    (∀ g ∈ (processCategoryTrends expenses).1,
        g.monthlyBreakdown.Pairwise fun e1 e2 =>
          ¬(e1.year = e2.year ∧ e1.month = e2.month)) := by
  have hMnodup := accumGroups_keys_nodup
    (fun e => monthYearKey e.year e.month) (fun e => e.category) expenses
  have hMmem := accumGroups_key_spec
    (fun e => monthYearKey e.year e.month) (fun e => e.category)
    (fun k => ∃ c, c ∈ expenses ∧ ValidPeriod c ∧
      k = monthYearKey c.year c.month)
    expenses (fun c hc => ⟨c, hc, hvalid c hc, rfl⟩)
  refine ⟨?_, ?_, ?_, ?_, ?_, ?_⟩
  · -- monthly groups: pairwise-distinct (year, month)
    rw [processMonthlyTrends]
    simp only
    refine (List.Perm.pairwise_iff
      (by intro a b h hc; exact h ⟨hc.1.symm, hc.2.symm⟩)
      (List.perm_insertionSort monthlyLe _)).mpr ?_
    rw [List.pairwise_map]
    refine List.Pairwise.imp_of_mem ?_ (List.pairwise_map.mp hMnodup)
    intro kv1 kv2 h1 h2 hne hcon
    obtain ⟨c1, hc1, ⟨hm1a, hm1b, hy1a, hy1b⟩, hk1⟩ := hMmem kv1 h1
    obtain ⟨c2, hc2, ⟨hm2a, hm2b, hy2a, hy2b⟩, hk2⟩ := hMmem kv2 h2
    have e1 : splitKey kv1.1 = (c1.year, c1.month) := by
      rw [hk1]; exact splitKey_monthYearKey hy1a hy1b hm1a hm1b
    have e2 : splitKey kv2.1 = (c2.year, c2.month) := by
      rw [hk2]; exact splitKey_monthYearKey hy2a hy2b hm2a hm2b
    obtain ⟨hy, hm⟩ := hcon
    simp only [e1, e2] at hy hm
    exact hne (by rw [hk1, hk2, hy, hm])
  · -- monthly groups: breakdown categories unique
    intro g hg
    rw [processMonthlyTrends] at hg
    simp only [List.mem_insertionSort, List.mem_map] at hg
    obtain ⟨kv, hkv, rfl⟩ := hg
    have := accumGroups_inner_keys_nodup
      (fun e => monthYearKey e.year e.month) (fun e => e.category)
      expenses kv hkv
    simpa [List.map_map, Function.comp] using this
  · -- yearly groups: pairwise-distinct years
    rw [processYearlyTrends]
    simp only
    refine (List.Perm.pairwise_iff
      (by intro a b h hc; exact h hc.symm)
      (List.perm_insertionSort yearlyLe _)).mpr ?_
    rw [List.pairwise_map]
    have hYnodup := accumGroups_keys_nodup
      (fun e => e.year) (fun e => e.category) expenses
    exact List.pairwise_map.mp hYnodup
  · -- yearly groups: breakdown categories unique
    intro g hg
    rw [processYearlyTrends] at hg
    simp only [List.mem_insertionSort, List.mem_map] at hg
    obtain ⟨kv, hkv, rfl⟩ := hg
    have := accumGroups_inner_keys_nodup
      (fun e => e.year) (fun e => e.category) expenses kv hkv
    simpa [List.map_map, Function.comp] using this
  · -- category groups: categories unique
    rw [processCategoryTrends]
    simp only
    have hCnodup := accumGroups_keys_nodup
      (fun e => e.category) (fun e => monthYearKey e.year e.month) expenses
    refine (List.Perm.nodup_iff
      ((List.perm_insertionSort categoryGe _).map _)).mpr ?_
    simpa [List.map_map, Function.comp] using hCnodup
  · -- category groups: monthlyBreakdown pairwise-distinct (year, month)
    intro g hg
    rw [processCategoryTrends] at hg
    simp only [List.mem_insertionSort, List.mem_map] at hg
    obtain ⟨kv, hkv, rfl⟩ := hg
    have hInodup := accumGroups_inner_keys_nodup
      (fun e => e.category) (fun e => monthYearKey e.year e.month)
      expenses kv hkv
    have hImem := accumGroups_inner_key_spec
      (fun e => e.category) (fun e => monthYearKey e.year e.month)
      (fun k => ∃ c, c ∈ expenses ∧ ValidPeriod c ∧
        k = monthYearKey c.year c.month)
      expenses (fun c hc => ⟨c, hc, hvalid c hc, rfl⟩) kv hkv
    simp only
    refine (List.Perm.pairwise_iff
      (by intro a b h hc; exact h ⟨hc.1.symm, hc.2.symm⟩)
      (List.perm_insertionSort monthAmountLe _)).mpr ?_
    rw [List.pairwise_map]
    refine List.Pairwise.imp_of_mem ?_ (List.pairwise_map.mp hInodup)
    intro iv1 iv2 h1 h2 hne hcon
    obtain ⟨c1, hc1, ⟨hm1a, hm1b, hy1a, hy1b⟩, hk1⟩ := hImem iv1 h1
    obtain ⟨c2, hc2, ⟨hm2a, hm2b, hy2a, hy2b⟩, hk2⟩ := hImem iv2 h2
    have e1 : splitKey iv1.1 = (c1.year, c1.month) := by
      rw [hk1]; exact splitKey_monthYearKey hy1a hy1b hm1a hm1b
    have e2 : splitKey iv2.1 = (c2.year, c2.month) := by
      rw [hk2]; exact splitKey_monthYearKey hy2a hy2b hm2a hm2b
    obtain ⟨hy, hm⟩ := hcon
    simp only [e1, e2] at hy hm
    exact hne (by rw [hk1, hk2, hy, hm])

/-- Closed witness for C10 at the §8 example records. -/
theorem trend_group_keys_unique_witness :
    ((processMonthlyTrends specExampleExpenses).1.Pairwise fun g1 g2 =>
        ¬(g1.year = g2.year ∧ g1.month = g2.month)) ∧
    (∀ g ∈ (processMonthlyTrends specExampleExpenses).1,
        (g.categoryBreakdown.map CategoryAmount.category).Nodup) ∧
    ((processYearlyTrends specExampleExpenses).1.Pairwise fun g1 g2 =>
        g1.year ≠ g2.year) ∧
    (∀ g ∈ (processYearlyTrends specExampleExpenses).1,
        (g.categoryBreakdown.map CategoryAmount.category).Nodup) ∧
    (((processCategoryTrends specExampleExpenses).1.map
        CategoryTrendData.category).Nodup) ∧
    (∀ g ∈ (processCategoryTrends specExampleExpenses).1,
        g.monthlyBreakdown.Pairwise fun e1 e2 =>
          ¬(e1.year = e2.year ∧ e1.month = e2.month)) :=
  trend_group_keys_unique specExampleExpenses (by decide)


/-! ## Range resolution and range-ordering validation -/

/-- Claim C6: Range resolution fails with `RangeError` exactly when
`endYear < startYear`, or when `startYear == endYear` and both months are
given with `endMonth < startMonth`; for every other input the resolver
does not fail on range ordering.  (The code's check, `trendsRangeInvalid`,
is proved equivalent to the spec's condition, `SpecRangeErrorCond`.) -/
theorem trendsRangeInvalid_iff_spec (sy ey : Nat) (sm em : Option Nat)
    (hsm : ∀ a ∈ sm, 1 ≤ a ∧ a ≤ 12) (hem : ∀ a ∈ em, 1 ≤ a ∧ a ≤ 12) :
    trendsRangeInvalid sy ey sm em = true ↔ SpecRangeErrorCond sy ey sm em := by
  unfold trendsRangeInvalid SpecRangeErrorCond isTruthy
  cases sm with
  | none => cases em <;> simp
  | some a =>
      have ha := hsm a rfl
      cases em with
      | none => simp
      | some b =>
          have hb := hem b rfl
          have ha0 : a ≠ 0 := by omega
          have hb0 : b ≠ 0 := by omega
          simp [ha0, hb0]

/-- Claim C5: For `startYear < endYear` the resolver builds the three-part
union (start year bounded below by `startMonth` when given, strict middle
years, end year bounded above by `endMonth` when given), and a record's
`(year, month)` matches the resulting predicate iff it lies in the
inclusive span from `(startYear, startMonth ?? 1)` to
`(endYear, endMonth ?? 12)`. -/
theorem trends_range_predicate_iff_span (q : TrendsQuery)
    (hlt : q.startYear < q.endYear)
    (hsm : ∀ a ∈ q.startMonth, 1 ≤ a ∧ a ≤ 12)
    (hem : ∀ a ∈ q.endMonth, 1 ≤ a ∧ a ≤ 12)
    (hcat : q.category = none)
    (y m : Nat) (hm1 : 1 ≤ m) (hm2 : m ≤ 12) (cat : String) :
    whereMatches (buildTrendsWhere q) y m cat = true ↔
      ((q.startYear < y ∨ (y = q.startYear ∧ q.startMonth.getD 1 ≤ m)) ∧
       (y < q.endYear ∨ (y = q.endYear ∧ m ≤ q.endMonth.getD 12))) := by
  obtain ⟨sy, ey, sm, em, qc⟩ := q
  simp only at hlt hsm hem hcat ⊢
  subst hcat
  have hne : ¬ sy = ey := by omega
  cases sm with
  | none =>
      cases em with
      | none =>
          rcases Nat.lt_or_ge (ey - sy) 2 with hgap | hgap
          · simp [buildTrendsWhere, whereMatches, clauseMatches, isTruthy,
              hne, show ¬ ey - sy > 1 by omega]
            omega
          · simp [buildTrendsWhere, whereMatches, clauseMatches, isTruthy,
              hne, show ey - sy > 1 by omega]
            omega
      | some b =>
          have hb := hem b rfl
          have hb0 : b ≠ 0 := by omega
          rcases Nat.lt_or_ge (ey - sy) 2 with hgap | hgap
          · simp [buildTrendsWhere, whereMatches, clauseMatches, isTruthy,
              hne, hb0, show ¬ ey - sy > 1 by omega]
            omega
          · simp [buildTrendsWhere, whereMatches, clauseMatches, isTruthy,
              hne, hb0, show ey - sy > 1 by omega]
            omega
  | some a =>
      have ha := hsm a rfl
      have ha0 : a ≠ 0 := by omega
      cases em with
      | none =>
          rcases Nat.lt_or_ge (ey - sy) 2 with hgap | hgap
          · simp [buildTrendsWhere, whereMatches, clauseMatches, isTruthy,
              hne, ha0, show ¬ ey - sy > 1 by omega]
            omega
          · simp [buildTrendsWhere, whereMatches, clauseMatches, isTruthy,
              hne, ha0, show ey - sy > 1 by omega]
            omega
      | some b =>
          have hb := hem b rfl
          have hb0 : b ≠ 0 := by omega
          rcases Nat.lt_or_ge (ey - sy) 2 with hgap | hgap
          · simp [buildTrendsWhere, whereMatches, clauseMatches, isTruthy,
              hne, ha0, hb0, show ¬ ey - sy > 1 by omega]
            omega
          · simp [buildTrendsWhere, whereMatches, clauseMatches, isTruthy,
              hne, ha0, hb0, show ey - sy > 1 by omega]
            omega

/-- Closed witness for C6: a same-year inverted month pair and the §8
cross-year example, both instantiating the equivalence. -/
theorem trendsRangeInvalid_iff_spec_witness :
    (trendsRangeInvalid 2024 2024 (some 5) (some 3) = true ↔
      SpecRangeErrorCond 2024 2024 (some 5) (some 3)) ∧
    (trendsRangeInvalid 2023 2024 (some 11) (some 2) = true ↔
      SpecRangeErrorCond 2023 2024 (some 11) (some 2)) :=
  ⟨trendsRangeInvalid_iff_spec 2024 2024 (some 5) (some 3)
      (by intro a ha; simp at ha; omega) (by intro a ha; simp at ha; omega),
    trendsRangeInvalid_iff_spec 2023 2024 (some 11) (some 2)
      (by intro a ha; simp at ha; omega) (by intro a ha; simp at ha; omega)⟩

/-- Closed witness for C5: the §8 cross-year example
`startYear=2023, startMonth=11, endYear=2024, endMonth=2` includes
2023-12 and 2024-01 and excludes 2023-10 and 2024-03. -/
theorem trends_range_predicate_iff_span_witness :
    (whereMatches (buildTrendsWhere ⟨2023, 2024, some 11, some 2, none⟩)
        2023 12 "Salaries" = true) ∧
    (whereMatches (buildTrendsWhere ⟨2023, 2024, some 11, some 2, none⟩)
        2024 1 "Salaries" = true) ∧
    (whereMatches (buildTrendsWhere ⟨2023, 2024, some 11, some 2, none⟩)
        2023 10 "Salaries" = false) ∧
    (whereMatches (buildTrendsWhere ⟨2023, 2024, some 11, some 2, none⟩)
        2024 3 "Salaries" = false) := by
  have hq : ∀ y m : Nat, 1 ≤ m → m ≤ 12 →
      (whereMatches (buildTrendsWhere ⟨2023, 2024, some 11, some 2, none⟩)
        y m "Salaries" = true ↔
      ((2023 < y ∨ (y = 2023 ∧ 11 ≤ m)) ∧ (y < 2024 ∨ (y = 2024 ∧ m ≤ 2)))) :=
    fun y m h1 h2 => trends_range_predicate_iff_span
      ⟨2023, 2024, some 11, some 2, none⟩ (by decide)
      (by intro a ha; simp at ha; omega)
      (by intro a ha; simp at ha; omega) rfl y m h1 h2 "Salaries"
  refine ⟨?_, ?_, ?_, ?_⟩
  · exact (hq 2023 12 (by omega) (by omega)).mpr (by omega)
  · exact (hq 2024 1 (by omega) (by omega)).mpr (by omega)
  · exact Bool.eq_false_iff.mpr
      (fun hw => by have h := (hq 2023 10 (by omega) (by omega)).mp hw; omega)
  · exact Bool.eq_false_iff.mpr
      (fun hw => by have h := (hq 2024 3 (by omega) (by omega)).mp hw; omega)

/-! ## Batch arithmetic: the loop's chunks exactly cover the queue -/

theorem numBatches_cons {α : Type} (b : Nat) (hb : 0 < b) (q : List α)
    (hq : q ≠ []) :
    (q.length + b - 1) / b = ((q.drop b).length + b - 1) / b + 1 := by
  have h1 : 1 ≤ q.length := List.length_pos.mpr hq
  rw [List.length_drop]
  rcases le_or_lt q.length b with hle | hlt
  · have e1 : q.length + b - 1 = (q.length - 1) + b := by omega
    have e2 : q.length - b = 0 := by omega
    rw [e1, e2, Nat.add_div_right _ hb, Nat.div_eq_of_lt (by omega),
      Nat.div_eq_of_lt (by omega)]
  · have e1 : q.length + b - 1 = (q.length - 1 - b) + b + b := by omega
    have e2 : q.length - b + b - 1 = (q.length - 1 - b) + b := by omega
    rw [e1, e2, Nat.add_div_right _ hb, Nat.add_div_right _ hb]

theorem chunks_flatten {α : Type} (b : Nat) (hb : 0 < b) (q : List α) :
    ((List.range ((q.length + b - 1) / b)).map
      (fun k => (q.drop (k * b)).take b)).flatten = q := by
  suffices h : ∀ (n : Nat) (q : List α), q.length ≤ n →
      ((List.range ((q.length + b - 1) / b)).map
        (fun k => (q.drop (k * b)).take b)).flatten = q by
    exact h q.length q le_rfl
  intro n
  induction n with
  | zero =>
      intro q hq
      have hq0 : q = [] := List.length_eq_zero.mp (Nat.le_zero.mp hq)
      subst hq0
      have hz : (([] : List α).length + b - 1) / b = 0 := by
        simp only [List.length_nil, Nat.zero_add]
        exact Nat.div_eq_of_lt (by omega)
      rw [hz]
      simp
  | succ n ih =>
      intro q hq
      by_cases hnil : q = []
      · subst hnil
        have hz : (([] : List α).length + b - 1) / b = 0 := by
          simp only [List.length_nil, Nat.zero_add]
          exact Nat.div_eq_of_lt (by omega)
        rw [hz]
        simp
      · rw [numBatches_cons b hb q hnil, List.range_succ_eq_map]
        simp only [List.map_cons, List.map_map, List.flatten_cons,
          Nat.zero_mul, List.drop_zero]
        have hdrop : ∀ k : Nat, q.drop (Nat.succ k * b) = (q.drop b).drop (k * b) := by
          intro k
          rw [List.drop_drop]
          congr 1
          rw [Nat.succ_mul, Nat.add_comm]
        have hmapeq :
            (List.range (((q.drop b).length + b - 1) / b)).map
              ((fun k => (q.drop (k * b)).take b) ∘ Nat.succ) =
            (List.range (((q.drop b).length + b - 1) / b)).map
              (fun k => ((q.drop b).drop (k * b)).take b) := by
          refine List.map_congr_left ?_
          intro k _
          simp [Function.comp, hdrop k]
        rw [hmapeq, ih (q.drop b) (by rw [List.length_drop]; omega)]
        exact List.take_append_drop b q

/-! ## The batch loop: success, first failure, and id uniqueness -/

theorem runStep_error_absorb (now b : Nat) (failAt : Nat → Bool)
    (q : List Cost) (l : List Nat) (x : List ArchivedCost) :
    l.foldl
      (fun st k =>
        match st with
        | .error ar => .error ar
        | .ok (ar, acc) =>
            if failAt k then .error ar
            else
              .ok (archiveBatch now ar ((q.drop (k * b)).take b),
                   acc + ((q.drop (k * b)).take b).length))
      (Except.error x) = Except.error x := by
  induction l with
  | nil => rfl
  | cons k rest ih => simpa using ih

theorem runStep_ok_of_noFail (now b : Nat) (failAt : Nat → Bool)
    (q : List Cost) :
    ∀ (l : List Nat), (∀ k ∈ l, failAt k = false) →
    ∀ (ar : List ArchivedCost) (acc : Nat),
    l.foldl
      (fun st k =>
        match st with
        | .error ar => .error ar
        | .ok (ar, acc) =>
            if failAt k then .error ar
            else
              let batch := (q.drop (k * b)).take b
              .ok (archiveBatch now ar batch, acc + batch.length))
      (Except.ok (ar, acc)) =
    Except.ok
      (l.foldl (fun a k => archiveBatch now a ((q.drop (k * b)).take b)) ar,
       l.foldl (fun a k => a + ((q.drop (k * b)).take b).length) acc) := by
  intro l
  induction l with
  | nil => intro _ ar acc; rfl
  | cons k rest ih =>
      intro hl ar acc
      have hk : failAt k = false := hl k (List.mem_cons_self _ _)
      simp only [List.foldl_cons, hk]
      exact ih (fun j hj => hl j (List.mem_cons_of_mem _ hj)) _ _

theorem archiveRunBatches_noFail (now b : Nat) (q : List Cost)
    (archive : List ArchivedCost) :
    archiveRunBatches now b (fun _ => false) q archive =
      .ok ((List.range ((q.length + b - 1) / b)).foldl
            (fun a k => archiveBatch now a ((q.drop (k * b)).take b)) archive,
           (List.range ((q.length + b - 1) / b)).foldl
            (fun a k => a + ((q.drop (k * b)).take b).length) 0) := by
  exact runStep_ok_of_noFail now b (fun _ => false) q _ (fun _ _ => rfl) _ _

theorem archiveRunBatches_firstFail (now b : Nat) (failAt : Nat → Bool)
    (q : List Cost) (archive : List ArchivedCost) (i : Nat)
    (hi : i < (q.length + b - 1) / b) (hfi : failAt i = true)
    (hprev : ∀ j < i, failAt j = false) :
    archiveRunBatches now b failAt q archive =
      .error ((List.range i).foldl
        (fun a k => archiveBatch now a ((q.drop (k * b)).take b)) archive) := by
  have hsplit : List.range ((q.length + b - 1) / b) =
      List.range i ++ i ::
        ((List.range ((q.length + b - 1) / b - i - 1)).map
          (fun x => i + 1 + x)) := by
    have h1 : (q.length + b - 1) / b = i + (1 + ((q.length + b - 1) / b - i - 1)) := by
      omega
    rw [h1, List.range_add, List.range_add]
    simp [List.range_succ, List.map_map, Function.comp, Nat.add_assoc]
  rw [archiveRunBatches, hsplit, List.foldl_append,
    runStep_ok_of_noFail now b failAt q _
      (fun j hj => hprev j (List.mem_range.mp hj)) archive 0]
  simp only [List.foldl_cons, hfi, if_true]
  exact runStep_error_absorb now b failAt q _ _

theorem archiveBatch_ids_nodup (now : Nat) :
    ∀ (batch : List Cost) (ar : List ArchivedCost),
      (ar.map ArchivedCost.id).Nodup →
      ((archiveBatch now ar batch).map ArchivedCost.id).Nodup := by
  intro batch
  induction batch with
  | nil => intro ar h; exact h
  | cons c rest ih =>
      intro ar h
      rw [archiveBatch]
      simp only [List.foldl_cons]
      by_cases hmem : ar.any (fun a => a.id == c.id)
      · rw [← archiveBatch]
        simpa [hmem] using ih ar h
      · rw [← archiveBatch]
        have hfresh : ∀ a ∈ ar, ¬ a.id = c.id := by
          intro a ha
          have := (List.any_eq_false.mp (Bool.eq_false_iff.mpr hmem)) a ha
          simpa using this
        refine ih _ ?_
        simp only [hmem, if_false, Bool.false_eq_true]
        rw [List.map_append]
        refine h.append (by simp) ?_
        intro x hx hx'
        simp only [List.map_cons, List.map_nil, List.mem_singleton] at hx'
        subst hx'
        obtain ⟨a, ha, hax⟩ := List.mem_map.mp hx
        exact hfresh a ha (by simpa [toArchived] using hax)

theorem archiveRunBatches_ids_nodup (now b : Nat) (failAt : Nat → Bool)
    (q : List Cost) (archive : List ArchivedCost)
    (h : (archive.map ArchivedCost.id).Nodup) :
    (∀ ar acc, archiveRunBatches now b failAt q archive = .ok (ar, acc) →
      (ar.map ArchivedCost.id).Nodup) ∧
    (∀ ar, archiveRunBatches now b failAt q archive = .error ar →
      (ar.map ArchivedCost.id).Nodup) := by
  rw [archiveRunBatches]
  suffices hgen : ∀ (l : List Nat)
      (st : Except (List ArchivedCost) (List ArchivedCost × Nat)),
      (∀ ar acc, st = .ok (ar, acc) → (ar.map ArchivedCost.id).Nodup) →
      (∀ ar, st = .error ar → (ar.map ArchivedCost.id).Nodup) →
      (∀ ar acc, l.foldl
        (fun st k =>
          match st with
          | .error ar => .error ar
          | .ok (ar, acc) =>
              if failAt k then .error ar
              else
                let batch := (q.drop (k * b)).take b
                .ok (archiveBatch now ar batch, acc + batch.length))
        st = .ok (ar, acc) → (ar.map ArchivedCost.id).Nodup) ∧
      (∀ ar, l.foldl
        (fun st k =>
          match st with
          | .error ar => .error ar
          | .ok (ar, acc) =>
              if failAt k then .error ar
              else
                let batch := (q.drop (k * b)).take b
                .ok (archiveBatch now ar batch, acc + batch.length))
        st = .error ar → (ar.map ArchivedCost.id).Nodup) by
    exact hgen _ _
      (fun ar acc heq => by
        injection heq with h1; injection h1 with h2 h3; rw [← h2]; exact h)
      (fun ar heq => by cases heq)
  intro l
  induction l with
  | nil =>
      intro st hok herr
      constructor
      · intro ar acc heq; exact hok ar acc heq
      · intro ar heq; exact herr ar heq
  | cons k rest ih =>
      intro st hok herr
      simp only [List.foldl_cons]
      cases st with
      | error ar0 =>
          exact ih (.error ar0) (fun _ _ heq => by cases heq) herr
      | ok p =>
          obtain ⟨ar0, acc0⟩ := p
          have hnd : (ar0.map ArchivedCost.id).Nodup := hok ar0 acc0 rfl
          by_cases hf : failAt k
          · simp only [hf, if_true]
            exact ih (.error ar0) (fun _ _ heq => by cases heq)
              (fun ar heq => by injection heq with h1; rw [← h1]; exact hnd)
          · simp only [hf, if_false]
            refine ih _ ?_ (fun _ heq => by cases heq)
            intro ar acc heq
            injection heq with h1
            injection h1 with h2 h3
            rw [← h2]
            exact archiveBatch_ids_nodup now _ ar0 hnd

theorem foldl_add_length {α : Type} (f : Nat → List α) (l : List Nat)
    (acc : Nat) :
    l.foldl (fun a k => a + (f k).length) acc =
      acc + ((l.map f).flatten).length := by
  induction l generalizing acc with
  | nil => simp
  | cons k rest ih => simp [ih, Nat.add_assoc]

theorem sortByCreatedAt_length (l : List Cost) :
    (sortByCreatedAt l).length = l.length := by
  rw [sortByCreatedAt]
  exact List.length_insertionSort _ _

/-- Claim C7: `archiveOldData` with `batchSize = b ≥ 1` over `n` qualifying
live records: a no-op returning zero counts and touching neither store
when `n = 0`; otherwise (all writes succeeding) it processes the records
in `⌈n/b⌉` batches — batch `k` holding `min b (n - k·b)` records — and
returns `archivedCount = deletedCount = n`, deleting exactly the
qualifying records. -/
theorem archive_counts_and_batches (cutoff b now : Nat) (hb : 0 < b)
    (live : List Cost) (archive : List ArchivedCost) (failAt : Nat → Bool) :
    ((live.filter fun c => c.createdAt < cutoff).length = 0 →
      archiveOldData cutoff b now failAt live archive =
        (.ok { archivedCount := 0, deletedCount := 0, cutoffDate := cutoff },
         live, archive)) ∧
    (0 < (live.filter fun c => c.createdAt < cutoff).length →
      ∃ ar', archiveOldData cutoff b now (fun _ => false) live archive =
        (.ok { archivedCount := (live.filter fun c => c.createdAt < cutoff).length
               deletedCount := (live.filter fun c => c.createdAt < cutoff).length
               cutoffDate := cutoff },
         live.filter (fun c => ¬ c.createdAt < cutoff), ar')) ∧
    (∀ k, k < ((live.filter fun c => c.createdAt < cutoff).length + b - 1) / b →
      (((sortByCreatedAt (live.filter fun c => c.createdAt < cutoff)).drop
          (k * b)).take b).length =
        min b ((live.filter fun c => c.createdAt < cutoff).length - k * b)) := by
  refine ⟨?_, ?_, ?_⟩
  · intro h0
    simp [archiveOldData, h0]
  · intro hpos
    have hq0 : ¬ ((live.filter fun c => c.createdAt < cutoff).length = 0) := by
      omega
    simp only [archiveOldData, hq0, if_false]
    rw [archiveRunBatches_noFail]
    have hqlen := sortByCreatedAt_length (live.filter fun c => c.createdAt < cutoff)
    have hcount :
        (List.range
            (((sortByCreatedAt (live.filter fun c => c.createdAt < cutoff)).length
              + b - 1) / b)).foldl
          (fun a k => a +
            (((sortByCreatedAt (live.filter fun c => c.createdAt < cutoff)).drop
              (k * b)).take b).length) 0 =
          (live.filter fun c => c.createdAt < cutoff).length := by
      rw [foldl_add_length
          (fun k =>
            ((sortByCreatedAt (live.filter fun c => c.createdAt < cutoff)).drop
              (k * b)).take b),
        chunks_flatten b hb, hqlen, Nat.zero_add]
    rw [hcount]
    exact ⟨_, rfl⟩
  · intro k hk
    rw [List.length_take, List.length_drop, sortByCreatedAt_length]

/-- Claim C2: If the archive write of batch `i` fails (all earlier writes
succeeding), `archiveOldData` propagates the error, the bulk delete never
runs — the live store is returned unchanged — and the archive holds
exactly the inserts of batches `0 … i-1`. -/
theorem archive_batch_failure_keeps_live (cutoff b now : Nat)
    (failAt : Nat → Bool) (live : List Cost) (archive : List ArchivedCost)
    (i : Nat)
    (hi : i < ((sortByCreatedAt (live.filter fun c =>
        c.createdAt < cutoff)).length + b - 1) / b)
    (hfi : failAt i = true) (hprev : ∀ j < i, failAt j = false) :
    archiveOldData cutoff b now failAt live archive =
      (.error (), live,
       (List.range i).foldl
         (fun a k => archiveBatch now a
           (((sortByCreatedAt (live.filter fun c =>
               c.createdAt < cutoff)).drop (k * b)).take b))
         archive) := by
  have hq0 : ¬ ((live.filter fun c => c.createdAt < cutoff).length = 0) := by
    intro h0
    rw [sortByCreatedAt_length, h0] at hi
    rcases Nat.eq_zero_or_pos b with hb0 | hb1
    · subst hb0
      simp at hi
    · rw [Nat.div_eq_of_lt (by omega)] at hi
      omega
  simp only [archiveOldData, hq0, if_false]
  rw [archiveRunBatches_firstFail now b failAt _ archive i hi hfi hprev]

theorem foldl_archiveBatch_ids_nodup (now : Nat) (f : Nat → List Cost) :
    ∀ (l : List Nat) (ar : List ArchivedCost),
      (ar.map ArchivedCost.id).Nodup →
      ((l.foldl (fun a k => archiveBatch now a (f k)) ar).map
        ArchivedCost.id).Nodup := by
  intro l
  induction l with
  | nil => intro ar h; exact h
  | cons k rest ih => intro ar h; exact ih _ (archiveBatch_ids_nodup now (f k) ar h)

/-- Whatever the batch-failure pattern, a run of `archiveOldData` keeps
the archive's ids duplicate-free. -/
theorem archiveOldData_archive_ids_nodup (cutoff b now : Nat)
    (failAt : Nat → Bool) (live : List Cost) (archive : List ArchivedCost)
    (h : (archive.map ArchivedCost.id).Nodup) :
    (((archiveOldData cutoff b now failAt live archive).2.2).map
      ArchivedCost.id).Nodup := by
  by_cases hq : (live.filter fun c => c.createdAt < cutoff).length = 0
  · simpa [archiveOldData, hq] using h
  · simp only [archiveOldData, hq, if_false]
    cases hrun : archiveRunBatches now b failAt
        (sortByCreatedAt (live.filter fun c => c.createdAt < cutoff))
        archive with
    | error ar =>
        simpa using
          (archiveRunBatches_ids_nodup now b failAt _ archive h).2 ar hrun
    | ok p =>
        obtain ⟨ar, acc⟩ := p
        simpa using
          (archiveRunBatches_ids_nodup now b failAt _ archive h).1 ar acc hrun

/-- Claim C3: Idempotence of archival: after a successful run, a second run
with the same cutoff over the resulting stores is a no-op returning
`archivedCount = deletedCount = 0`, and (for every failure pattern, hence
after every batch of any run) the archive never holds two records with
the same id. -/
theorem archive_rerun_noop_and_ids_unique (cutoff b now now2 : Nat)
    (failAt2 : Nat → Bool) (live : List Cost) (archive : List ArchivedCost)
    (r : ArchiveResult) (live1 : List Cost) (ar1 : List ArchivedCost)
    (hnodup : (archive.map ArchivedCost.id).Nodup)
    (h1 : archiveOldData cutoff b now (fun _ => false) live archive =
      (.ok r, live1, ar1)) :
    archiveOldData cutoff b now2 failAt2 live1 ar1 =
      (.ok { archivedCount := 0, deletedCount := 0, cutoffDate := cutoff },
       live1, ar1) ∧
    (ar1.map ArchivedCost.id).Nodup ∧
    (∀ failAt', (((archiveOldData cutoff b now failAt' live
        archive).2.2).map ArchivedCost.id).Nodup) := by
  by_cases hq : (live.filter fun c => c.createdAt < cutoff).length = 0
  · rw [archiveOldData] at h1
    simp only [hq, if_true, Prod.mk.injEq, Except.ok.injEq] at h1
    obtain ⟨_, hlive1, har1⟩ := h1
    subst hlive1
    subst har1
    refine ⟨by simp [archiveOldData, hq], hnodup, ?_⟩
    intro failAt'
    exact archiveOldData_archive_ids_nodup cutoff b now failAt' live
      archive hnodup
  · rw [archiveOldData] at h1
    simp only [hq, if_false] at h1
    rw [archiveRunBatches_noFail] at h1
    simp only [Prod.mk.injEq, Except.ok.injEq] at h1
    obtain ⟨_, hlive1, har1⟩ := h1
    subst hlive1
    subst har1
    have hempty : ((live.filter fun c => ¬ c.createdAt < cutoff).filter
        fun c => c.createdAt < cutoff) = [] := by
      rw [List.filter_filter]
      refine List.filter_eq_nil_iff.mpr ?_
      intro c _
      simp only [Bool.and_eq_true, decide_eq_true_eq, not_lt]
      omega
    refine ⟨by simp [archiveOldData, hempty], ?_, ?_⟩
    · exact foldl_archiveBatch_ids_nodup now _ _ archive hnodup
    · intro failAt'
      exact archiveOldData_archive_ids_nodup cutoff b now failAt' live
        archive hnodup

/-! ## Restore: reversed ranges and id collisions -/

/-- Counterexample to C4: with `endDate < startDate` (here `10 > 5`) the
restore does **not** fail with a `RangeError` — it returns normally with
zero records restored, even though an archive row (createdAt 7) lies
between the two dates. -/
theorem restore_reversed_range_counterexample :
    restoreFromArchive 10 5 0
        [⟨1, "Salaries", 500, 1, 2020, 0, 0⟩]
        [⟨2, "Marketing", 700, 2, 2021, 7, 4, 5⟩] =
      .ok (0, [⟨1, "Salaries", 500, 1, 2020, 0, 0⟩]) ∧
    restoreFromArchive 10 5 0
        [⟨1, "Salaries", 500, 1, 2020, 0, 0⟩]
        [⟨2, "Marketing", 700, 2, 2021, 7, 4, 5⟩] ≠
      .error ArchiveError.rangeError := by
  decide

/-- C4 as amended: for `endDate < startDate` the restore raises no error
and restores nothing — the date filter matches no archive row, so it
returns `0` with the live store unchanged. -/
theorem restore_reversed_range_returns_zero (startDate endDate now : Nat)
    (hlt : endDate < startDate) (live : List Cost)
    (archive : List ArchivedCost) :
    restoreFromArchive startDate endDate now live archive = .ok (0, live) := by
  rw [restoreFromArchive]
  have hnil : (archive.filter fun a =>
      startDate ≤ a.createdAt && a.createdAt ≤ endDate) = [] := by
    refine List.filter_eq_nil_iff.mpr ?_
    intro a _
    simp only [Bool.and_eq_true, decide_eq_true_eq, not_and, not_le]
    omega
  rw [hnil]
  rfl

/-- Closed witness for the amended C4. -/
theorem restore_reversed_range_returns_zero_witness :
    restoreFromArchive 10 5 0
        [⟨1, "Salaries", 500, 1, 2020, 0, 0⟩]
        [⟨2, "Marketing", 700, 2, 2021, 7, 4, 5⟩] =
      .ok (0, [⟨1, "Salaries", 500, 1, 2020, 0, 0⟩]) :=
  restore_reversed_range_returns_zero 10 5 0 (by omega)
    [⟨1, "Salaries", 500, 1, 2020, 0, 0⟩]
    [⟨2, "Marketing", 700, 2, 2021, 7, 4, 5⟩]

/-- Counterexample to C9: an id collision during restore does **not**
overwrite only `amount`/`updatedAt` — the live record's `category`,
`month` and `year` are overwritten too (only `createdAt` survives). -/
theorem restore_collision_counterexample :
    restoreFromArchive 0 10 9
        [⟨1, "Salaries", 500, 1, 2020, 0, 0⟩]
        [⟨1, "Marketing", 700, 2, 2021, 3, 4, 5⟩] =
      .ok (1, [⟨1, "Marketing", 700, 2, 2021, 0, 9⟩]) ∧
    ("Marketing" : String) ≠ "Salaries" ∧ (2 : Nat) ≠ 1 ∧
    (2021 : Nat) ≠ 2020 := by
  decide

/-- C9 as amended: when the restore loop meets a live record with the
restored row's id, it overwrites that record's `category`, `amount`,
`month`, `year` and `updatedAt`; only `createdAt` (and `id`) are
unchanged. -/
theorem restore_collision_overwrite (startDate endDate now : Nat)
    (live : List Cost) (archive : List ArchivedCost) (r : ArchivedCost)
    (c : Cost)
    (hf : (archive.filter fun a =>
        startDate ≤ a.createdAt && a.createdAt ≤ endDate) = [r])
    (hc : c ∈ live) (hid : c.id = r.id) :
    ∃ live2, restoreFromArchive startDate endDate now live archive =
        .ok (1, live2) ∧
      ({ c with category := r.category, amount := r.amount, month := r.month,
                year := r.year, updatedAt := now } : Cost) ∈ live2 ∧
      live2.length = live.length := by
  rw [restoreFromArchive, hf]
  have hany : live.any (fun c' => c'.id == r.id) = true :=
    List.any_eq_true.mpr ⟨c, hc, by simp [hid]⟩
  refine ⟨_, rfl, ?_, ?_⟩
  · simp only [List.foldl_cons, List.foldl_nil, upsertCost, hany, if_true]
    refine List.mem_map.mpr ⟨c, hc, ?_⟩
    simp [hid]
  · simp only [List.foldl_cons, List.foldl_nil, upsertCost, hany, if_true]
    exact List.length_map _ _

/-- Closed witness for the amended C9. -/
theorem restore_collision_overwrite_witness :
    ∃ live2, restoreFromArchive 0 10 9
        [⟨1, "Salaries", 500, 1, 2020, 0, 0⟩]
        [⟨1, "Marketing", 700, 2, 2021, 3, 4, 5⟩] = .ok (1, live2) ∧
      ({ id := 1, category := "Marketing", amount := 700, month := 2,
         year := 2021, createdAt := 0, updatedAt := 9 } : Cost) ∈ live2 ∧
      live2.length = 1 :=
  restore_collision_overwrite 0 10 9
    [⟨1, "Salaries", 500, 1, 2020, 0, 0⟩]
    [⟨1, "Marketing", 700, 2, 2021, 3, 4, 5⟩]
    ⟨1, "Marketing", 700, 2, 2021, 3, 4, 5⟩
    ⟨1, "Salaries", 500, 1, 2020, 0, 0⟩
    (by decide) (by decide) rfl

/-! ## Round-trip: archived records restore with identical fields -/

theorem archiveBatch_fresh (now : Nat) :
    ∀ (batch : List Cost) (ar : List ArchivedCost),
      (∀ c ∈ batch, ∀ a ∈ ar, a.id ≠ c.id) →
      ((batch.map Cost.id).Nodup) →
      archiveBatch now ar batch = ar ++ batch.map (toArchived now) := by
  intro batch
  induction batch with
  | nil => intro ar _ _; simp [archiveBatch]
  | cons c rest ih =>
      intro ar hdisj hnd
      rw [archiveBatch]
      simp only [List.foldl_cons]
      have hany : ar.any (fun a => a.id == c.id) = false := by
        refine List.any_eq_false.mpr ?_
        intro a ha
        simpa using hdisj c (List.mem_cons_self _ _) a ha
      rw [hany]
      simp only [Bool.false_eq_true, if_false]
      rw [← archiveBatch]
      have hnd' : (∀ x ∈ rest, ¬ x.id = c.id) ∧
          (rest.map Cost.id).Nodup := by simpa using hnd
      rw [ih (ar ++ [toArchived now c]) ?_ hnd'.2]
      · simp
      · intro c' hc' a ha
        rcases List.mem_append.mp ha with ha' | ha'
        · exact hdisj c' (List.mem_cons_of_mem _ hc') a ha'
        · simp only [List.mem_singleton] at ha'
          subst ha'
          simp only [toArchived]
          exact fun heq => hnd'.1 c' hc' heq.symm

theorem foldl_archiveBatch_fresh (now : Nat) :
    ∀ (L : List (List Cost)) (ar : List ArchivedCost),
      ((L.flatten.map Cost.id).Nodup) →
      (∀ c ∈ L.flatten, ∀ a ∈ ar, a.id ≠ c.id) →
      L.foldl (archiveBatch now) ar = ar ++ L.flatten.map (toArchived now) := by
  intro L
  induction L with
  | nil => intro ar _ _; simp
  | cons B rest ih =>
      intro ar hnd hdisj
      simp only [List.foldl_cons, List.flatten_cons] at hnd hdisj ⊢
      rw [List.map_append, List.nodup_append] at hnd
      obtain ⟨hndB, hndrest, hdisjBR⟩ := hnd
      rw [archiveBatch_fresh now B ar
        (fun c hc a ha => hdisj c (List.mem_append_left _ hc) a ha) hndB]
      rw [ih (ar ++ B.map (toArchived now)) hndrest ?_]
      · rw [List.map_append, List.append_assoc]
      · intro c hc a ha
        rcases List.mem_append.mp ha with ha' | ha'
        · exact hdisj c (List.mem_append_right _ hc) a ha'
        · obtain ⟨c0, hc0, rfl⟩ := List.mem_map.mp ha'
          simp only [toArchived]
          intro heq
          exact hdisjBR (List.mem_map.mpr ⟨c0, hc0, rfl⟩)
            (heq ▸ List.mem_map.mpr ⟨c, hc, rfl⟩)

theorem upsertCost_fresh (now : Nat) (live : List Cost) (r : ArchivedCost)
    (h : r.id ∉ live.map Cost.id) :
    upsertCost now live r = live ++ [restoredCost r] := by
  rw [upsertCost]
  have hany : live.any (fun c => c.id == r.id) = false := by
    refine List.any_eq_false.mpr ?_
    intro c hc
    simp only [beq_iff_eq]
    intro hcid
    exact h (hcid ▸ List.mem_map.mpr ⟨c, hc, rfl⟩)
  rw [hany]
  simp

theorem mem_upsertCost_of_ne (now : Nat) (live : List Cost)
    (r : ArchivedCost) (c : Cost) (hc : c ∈ live) (hne : c.id ≠ r.id) :
    c ∈ upsertCost now live r := by
  rw [upsertCost]
  by_cases hany : live.any (fun c' => c'.id == r.id) = true
  · rw [if_pos hany]
    refine List.mem_map.mpr ⟨c, hc, ?_⟩
    simp [hne]
  · rw [if_neg hany]
    exact List.mem_append_left _ hc

theorem not_mem_upsertCost_ids (now : Nat) (live : List Cost)
    (r : ArchivedCost) (x : Nat) (h1 : x ∉ live.map Cost.id)
    (h2 : x ≠ r.id) : x ∉ (upsertCost now live r).map Cost.id := by
  rw [upsertCost]
  by_cases hany : live.any (fun c' => c'.id == r.id) = true
  · rw [if_pos hany, List.map_map]
    have hmap : live.map (Cost.id ∘ fun c =>
        if c.id == r.id then
          { c with category := r.category, amount := r.amount
                   month := r.month, year := r.year, updatedAt := now }
        else c) = live.map Cost.id := by
      refine List.map_congr_left ?_
      intro c _
      by_cases hc : c.id == r.id <;> simp [hc, Function.comp]
    rw [hmap]
    exact h1
  · rw [if_neg hany, List.map_append]
    intro hx
    rcases List.mem_append.mp hx with hx' | hx'
    · exact h1 hx'
    · simp only [List.map_cons, List.map_nil, List.mem_singleton,
        restoredCost] at hx'
      exact h2 hx'

theorem mem_foldl_upsert_of_ne (now : Nat) :
    ∀ (rs : List ArchivedCost) (lv : List Cost) (c : Cost),
      c ∈ lv → (∀ r ∈ rs, r.id ≠ c.id) →
      c ∈ rs.foldl (upsertCost now) lv := by
  intro rs
  induction rs with
  | nil => intro lv c hc _; exact hc
  | cons r rest ih =>
      intro lv c hc hne
      simp only [List.foldl_cons]
      refine ih _ c ?_ (fun r' hr' => hne r' (List.mem_cons_of_mem _ hr'))
      exact mem_upsertCost_of_ne now lv r c hc
        (fun h => hne r (List.mem_cons_self _ _) h.symm)

theorem restoredCost_mem_foldl_upsert (now : Nat) :
    ∀ (rs : List ArchivedCost) (lv : List Cost) (o : ArchivedCost),
      o ∈ rs → ((rs.map ArchivedCost.id).Nodup) →
      o.id ∉ lv.map Cost.id →
      restoredCost o ∈ rs.foldl (upsertCost now) lv := by
  intro rs
  induction rs with
  | nil => intro lv o h _ _; cases h
  | cons r rest ih =>
      intro lv o ho hnd hlv
      have hnd' : (∀ x ∈ rest, ¬ x.id = r.id) ∧
          (rest.map ArchivedCost.id).Nodup := by simpa using hnd
      simp only [List.foldl_cons]
      rcases List.mem_cons.mp ho with rfl | ho'
      · rw [upsertCost_fresh now lv o hlv]
        refine mem_foldl_upsert_of_ne now rest _ (restoredCost o)
          (List.mem_append_right _ (by simp)) ?_
        intro r' hr'
        simp only [restoredCost]
        exact fun heq => hnd'.1 r' hr' heq
      · have hor : o.id ≠ r.id := hnd'.1 o ho'
        exact ih (upsertCost now lv r) o ho' hnd'.2
          (not_mem_upsertCost_ids now lv r o.id hlv hor)

theorem restoreFromArchive_isOk (s e now : Nat) (live : List Cost)
    (archive : List ArchivedCost) :
    ∃ p, restoreFromArchive s e now live archive = .ok p := by
  rw [restoreFromArchive]
  by_cases h : (archive.filter fun a =>
      s ≤ a.createdAt && a.createdAt ≤ e).length = 0
  · exact ⟨_, by rw [if_pos h]⟩
  · exact ⟨_, by rw [if_neg h]⟩

/-- Claim C8: Round-trip: records migrated by a successful `archiveOldData`
run are re-created by `restoreFromArchive` over a covering date range,
with identical `id`, `category`, `amount`, `month` and `year`. -/
theorem archive_restore_round_trip (cutoff b now s e now2 : Nat)
    (hb : 0 < b) (live : List Cost) (archive : List ArchivedCost)
    (hliveIds : (live.map Cost.id).Nodup)
    (harIds : (archive.map ArchivedCost.id).Nodup)
    (hdisj : ∀ c ∈ live, c.createdAt < cutoff →
      ∀ a ∈ archive, a.id ≠ c.id)
    (hcover : ∀ c ∈ live, c.createdAt < cutoff →
      s ≤ c.createdAt ∧ c.createdAt ≤ e)
    (r : ArchiveResult) (live1 : List Cost) (ar1 : List ArchivedCost)
    (h1 : archiveOldData cutoff b now (fun _ => false) live archive =
      (.ok r, live1, ar1)) :
    ∃ cnt live2, restoreFromArchive s e now2 live1 ar1 = .ok (cnt, live2) ∧
      ∀ o ∈ live, o.createdAt < cutoff →
        ∃ c2 ∈ live2, c2.id = o.id ∧ c2.category = o.category ∧
          c2.amount = o.amount ∧ c2.month = o.month ∧ c2.year = o.year := by
  by_cases hq : (live.filter fun c => c.createdAt < cutoff).length = 0
  · have hnone : ∀ o ∈ live, ¬ o.createdAt < cutoff := by
      intro o ho hp
      have hmem : o ∈ live.filter fun c => c.createdAt < cutoff :=
        List.mem_filter.mpr ⟨ho, by simpa using hp⟩
      rw [List.length_eq_zero.mp hq] at hmem
      cases hmem
    obtain ⟨⟨cnt, live2⟩, hres⟩ := restoreFromArchive_isOk s e now2 live1 ar1
    exact ⟨cnt, live2, hres, fun o ho hp => absurd hp (hnone o ho)⟩
  · rw [archiveOldData] at h1
    simp only [hq, if_false] at h1
    rw [archiveRunBatches_noFail] at h1
    simp only [Prod.mk.injEq, Except.ok.injEq] at h1
    obtain ⟨hr, hlive1, har1⟩ := h1
    have hqperm : List.Perm
        (sortByCreatedAt (live.filter fun c => c.createdAt < cutoff))
        (live.filter fun c => c.createdAt < cutoff) := by
      rw [sortByCreatedAt]
      exact List.perm_insertionSort _ _
    have hqids : ((sortByCreatedAt (live.filter fun c =>
        c.createdAt < cutoff)).map Cost.id).Nodup := by
      refine (List.Perm.nodup_iff (hqperm.map Cost.id)).mpr ?_
      exact ((List.filter_sublist _).map Cost.id).nodup hliveIds
    have hqfresh : ∀ c ∈ sortByCreatedAt (live.filter fun c =>
        c.createdAt < cutoff), ∀ a ∈ archive, a.id ≠ c.id := by
      intro c hc a ha
      have hc' := List.mem_filter.mp (hqperm.mem_iff.mp hc)
      exact hdisj c hc'.1 (by simpa using hc'.2) a ha
    have hLflat :
        ((List.range
            (((sortByCreatedAt (live.filter fun c =>
              c.createdAt < cutoff)).length + b - 1) / b)).map
          (fun k => ((sortByCreatedAt (live.filter fun c =>
            c.createdAt < cutoff)).drop (k * b)).take b)).flatten =
        sortByCreatedAt (live.filter fun c => c.createdAt < cutoff) :=
      chunks_flatten b hb _
    have har1eq : ar1 = archive ++
        (sortByCreatedAt (live.filter fun c =>
          c.createdAt < cutoff)).map (toArchived now) := by
      rw [← har1, ← List.foldl_map
        (fun k => ((sortByCreatedAt (live.filter fun c =>
          c.createdAt < cutoff)).drop (k * b)).take b)
        (archiveBatch now)]
      rw [foldl_archiveBatch_fresh now _ archive
        (by rw [hLflat]; exact hqids)
        (by rw [hLflat]; exact hqfresh)]
      rw [hLflat]
    have har1ids : (ar1.map ArchivedCost.id).Nodup := by
      rw [har1eq, List.map_append]
      refine List.nodup_append.mpr ⟨harIds, ?_, ?_⟩
      · have hmm : (((sortByCreatedAt (live.filter fun c =>
            c.createdAt < cutoff)).map (toArchived now)).map
            ArchivedCost.id) =
            (sortByCreatedAt (live.filter fun c =>
              c.createdAt < cutoff)).map Cost.id := by
          rw [List.map_map]
          exact List.map_congr_left (fun c _ => rfl)
        rw [hmm]
        exact hqids
      · intro x hx1 hx2
        obtain ⟨a0, ha0, ha0x⟩ := List.mem_map.mp hx1
        obtain ⟨a1, ha1, ha1x⟩ := List.mem_map.mp hx2
        obtain ⟨c1, hc1, rfl⟩ := List.mem_map.mp ha1
        exact hqfresh c1 hc1 a0 ha0 (by rw [ha0x, ← ha1x]; rfl)
    have hrecids : ((ar1.filter fun a =>
        s ≤ a.createdAt && a.createdAt ≤ e).map ArchivedCost.id).Nodup :=
      ((List.filter_sublist _).map ArchivedCost.id).nodup har1ids
    have homem : ∀ o ∈ live, o.createdAt < cutoff →
        toArchived now o ∈ (ar1.filter fun a =>
          s ≤ a.createdAt && a.createdAt ≤ e) := by
      intro o ho hp
      refine List.mem_filter.mpr ⟨?_, ?_⟩
      · rw [har1eq]
        refine List.mem_append_right _ (List.mem_map.mpr ⟨o, ?_, rfl⟩)
        exact hqperm.mem_iff.mpr (List.mem_filter.mpr ⟨ho, by simpa using hp⟩)
      · have hcov := hcover o ho hp
        simp only [toArchived, Bool.and_eq_true, decide_eq_true_eq]
        omega
    have hne : ¬ ((ar1.filter fun a =>
        s ≤ a.createdAt && a.createdAt ≤ e).length = 0) := by
      obtain ⟨o0, ho0⟩ := List.exists_mem_of_length_pos
        (Nat.pos_of_ne_zero hq)
      have ho0' := List.mem_filter.mp ho0
      have hmem := homem o0 ho0'.1 (by simpa using ho0'.2)
      intro hlen
      rw [List.length_eq_zero.mp hlen] at hmem
      cases hmem
    refine ⟨(ar1.filter fun a => s ≤ a.createdAt && a.createdAt ≤ e).length,
      (ar1.filter fun a => s ≤ a.createdAt && a.createdAt ≤ e).foldl
        (upsertCost now2) live1, ?_, ?_⟩
    · rw [restoreFromArchive, if_neg hne]
    · intro o ho hp
      have hnotin : (toArchived now o).id ∉ live1.map Cost.id := by
        rw [← hlive1]
        intro hx
        obtain ⟨c, hc, hcx⟩ := List.mem_map.mp hx
        have hc' := List.mem_filter.mp hc
        have hco : c = o :=
          List.inj_on_of_nodup_map hliveIds hc'.1 ho hcx
        subst hco
        simp only [decide_not, Bool.not_eq_true', decide_eq_false_iff_not]
          at hc'
        exact hc'.2 hp
      have hmem := restoredCost_mem_foldl_upsert now2
        (ar1.filter fun a => s ≤ a.createdAt && a.createdAt ≤ e)
        live1 (toArchived now o) (homem o ho hp) hrecids hnotin
      exact ⟨restoredCost (toArchived now o), hmem, rfl, rfl, rfl, rfl, rfl⟩

/-- Closed witness for C7: the §8 archival example — five qualifying
records, `batchSize = 2`, counts 5/5, last batch of size 1. -/
theorem archive_counts_and_batches_witness :
    0 < (archiveExampleLive.filter fun c => c.createdAt < 10).length ∧
    (∃ ar', archiveOldData 10 2 99 (fun _ => false) archiveExampleLive [] =
      (.ok { archivedCount :=
               (archiveExampleLive.filter fun c => c.createdAt < 10).length
             deletedCount :=
               (archiveExampleLive.filter fun c => c.createdAt < 10).length
             cutoffDate := 10 },
       archiveExampleLive.filter (fun c => ¬ c.createdAt < 10), ar')) ∧
    (((sortByCreatedAt (archiveExampleLive.filter fun c =>
        c.createdAt < 10)).drop (2 * 2)).take 2).length =
      min 2 ((archiveExampleLive.filter fun c =>
        c.createdAt < 10).length - 2 * 2) := by
  have h := archive_counts_and_batches 10 2 99 (by decide)
    archiveExampleLive [] (fun _ => false)
  exact ⟨by decide, h.2.1 (by decide), h.2.2 2 (by decide)⟩

/-- Closed witness for C2: the write of batch 1 fails; the run errors,
the live store is untouched, and batch 0 remains archived. -/
theorem archive_batch_failure_keeps_live_witness :
    archiveOldData 10 2 99 (fun k => k == 1) archiveExampleLive [] =
      (.error (), archiveExampleLive,
       (List.range 1).foldl
         (fun a k => archiveBatch 99 a
           (((sortByCreatedAt (archiveExampleLive.filter fun c =>
               c.createdAt < 10)).drop (k * 2)).take 2))
         []) :=
  archive_batch_failure_keeps_live 10 2 99 (fun k => k == 1)
    archiveExampleLive [] 1 (by decide) (by decide) (by decide)

/-- Closed witness for C3: after the example run, a second run (under any
failure pattern — here one that always fails) is a no-op with zero
counts, and the archive ids stay duplicate-free. -/
theorem archive_rerun_noop_and_ids_unique_witness :
    archiveOldData 10 2 77 (fun _ => true) [] archiveExampleArchived =
      (.ok { archivedCount := 0, deletedCount := 0, cutoffDate := 10 },
       [], archiveExampleArchived) ∧
    (archiveExampleArchived.map ArchivedCost.id).Nodup ∧
    (∀ failAt', (((archiveOldData 10 2 99 failAt' archiveExampleLive
        []).2.2).map ArchivedCost.id).Nodup) :=
  archive_rerun_noop_and_ids_unique 10 2 99 77 (fun _ => true)
    archiveExampleLive [] { archivedCount := 5, deletedCount := 5, cutoffDate := 10 }
    [] archiveExampleArchived (by decide) (by decide)

/-- Closed witness for C8: archive the five example records, then restore
the covering range `[0, 100]`; each original is re-created with identical
id, category, amount, month and year. -/
theorem archive_restore_round_trip_witness :
    ∃ cnt live2, restoreFromArchive 0 100 77 [] archiveExampleArchived =
        .ok (cnt, live2) ∧
      ∀ o ∈ archiveExampleLive, o.createdAt < 10 →
        ∃ c2 ∈ live2, c2.id = o.id ∧ c2.category = o.category ∧
          c2.amount = o.amount ∧ c2.month = o.month ∧ c2.year = o.year :=
  archive_restore_round_trip 10 2 99 0 100 77 (by decide)
    archiveExampleLive [] (by decide) (by decide) (by decide) (by decide)
    { archivedCount := 5, deletedCount := 5, cutoffDate := 10 }
    [] archiveExampleArchived (by decide)

end FinOps
